import Mathlib

/-!
# GenPod — verification of the text pipeline

Shallow embedding of the GenPod text pipeline
(`src/genpod/text_aligner.py`, `src/genpod/text_processor.py`,
`src/genpod/cli.py`) over `List Char`, together with proofs and
refutations of the specified properties.

Python strings are modelled as `List Char`; Python string indices are
modelled by working on suffixes.  Recursive functions of the source carry
an explicit fuel argument mirroring the source's own `depth` counter where
it has one, or a fuel large enough to be unreachable otherwise.
-/

namespace GenPod

/-- Split a character list at the *first* occurrence of `sep`:
`splitAtSep sep l = some (a, b)` iff `l = a ++ sep :: b` with `sep ∉ a`.
This models Python's `s.find(sep, i)` on the suffix starting at `i`. -/
def splitAtSep (sep : Char) : List Char → Option (List Char × List Char)
  | [] => none
  | c :: rest =>
    if c = sep then some ([], rest)
    else (splitAtSep sep rest).map (fun p => (c :: p.1, p.2))

/-- The tag whitelist of `align_text` (`text_aligner.py` line 58):
`WHITELIST_PREFIXES = ('break_', 'laugh', 'oral_', 'speed_')`. -/
def WHITELIST_PREFIXES : List (List Char) :=
  ["break_".toList, "laugh".toList, "oral_".toList, "speed_".toList]

/-- Whitelist check on the inside of a bracket tag: the lower-cased inner
text must start with one of the whitelisted prefixes (`text_aligner.py`
line 67).  Python's `str.lower` is modelled by `Char.toLower`, which agrees
with it on ASCII (the only characters the prefixes contain). -/
def isWhitelistedInner (inner : List Char) : Bool :=
  WHITELIST_PREFIXES.any (fun p => p.isPrefixOf (inner.map Char.toLower))

/-- The `while` loop of `align_text` draining all bracket tags at the
current position of the refined stream (`text_aligner.py` lines 60-81):
non-whitelisted tags are skipped, a tag equal to the current suffix of the
result is skipped as a duplicate, and any other whitelisted tag is appended
to the result.  The fuel is an upper bound on the length of the remaining
refined stream; `drainTags` instantiates it sufficiently. -/
def drainAux : Nat → List Char → List Char → List Char × List Char
  | 0, ref, acc => (ref, acc)
  | fuel + 1, ref, acc =>
    match ref with
    | [] => (ref, acc)
    | c :: rest =>
      if c = '[' then
        match splitAtSep ']' rest with
        | some (inner, after) =>
          let tag := '[' :: (inner ++ [']'])
          if isWhitelistedInner inner then
            if tag.isSuffixOf acc then drainAux fuel after acc
            else drainAux fuel after (acc ++ tag)
          else drainAux fuel after acc
        | none => (c :: rest, acc)
      else (c :: rest, acc)

/-- Drain the refined-stream tags at the current position (see `drainAux`). -/
def drainTags (ref acc : List Char) : List Char × List Char :=
  drainAux ref.length ref acc

/-- Bounded lookahead of `align_text` (`text_aligner.py` lines 103-116):
the smallest `k` with `1 ≤ k ≤ 9` (window 10) such that the character `k`
positions ahead in `l` equals `c`. -/
def lookWindow (c : Char) (l : List Char) : Option Nat :=
  (List.range' 1 9).find? (fun k => (l.drop k).head? == some c)

/-- When the normalized stream just yielded the manual tag `tag`, consume
the identical tag from the refined stream if it sits at the cursor
(`text_aligner.py` lines 44-52). -/
def consumeSameTag (tag : List Char) (ref : List Char) : List Char :=
  match ref with
  | [] => ref
  | c :: refRest =>
    if c = '[' then
      match splitAtSep ']' refRest with
      | some (rinner, rafter) =>
        if '[' :: (rinner ++ [']']) = tag then rafter else c :: refRest
      | none => c :: refRest
    else c :: refRest

/-- The main loop of `align_text` (`text_aligner.py` lines 31-131), with the
two cursors represented by the remaining suffixes of the two streams and
the accumulated `result` passed explicitly.  One fuel unit is spent per
loop iteration; every iteration strictly shrinks `norm.length + ref.length`,
so fuel `norm.length + ref.length + 1` is enough (see `alignGo_spec`).
When the refined stream is exhausted the source appends the remaining
normalized characters one iteration at a time (lines 83-87, possibly via
the manual-tag branch, which appends the same characters in one step);
this is modelled in one step by `acc ++ norm`. -/
def alignGo : Nat → List Char → List Char → List Char → List Char
  | 0, _, _, acc => acc
  | fuel + 1, norm, ref, acc =>
    match norm with
    | [] => acc
    | charNorm :: normRest =>
      match (if charNorm = '[' then splitAtSep ']' normRest else none) with
      | some (inner, normAfter) =>
        -- Step 0: manual tag in the normalized stream, kept unconditionally.
        let tag := '[' :: (inner ++ [']'])
        alignGo fuel normAfter (consumeSameTag tag ref) (acc ++ tag)
      | none =>
        -- Step 1: drain all tags at the refined cursor.
        match drainTags ref acc with
        | (ref1, acc1) =>
          match ref1 with
          | [] => acc1 ++ norm
          | charRef :: refRest =>
            if charRef = charNorm then
              -- Step 2: match.
              alignGo fuel normRest refRest (acc1 ++ [charNorm])
            else
              -- Step 3: mismatch, bounded lookahead in both streams.
              match lookWindow charNorm ref1, lookWindow charRef norm with
              | some _, none =>
                alignGo fuel norm refRest acc1
              | some k, some m =>
                if k < m then alignGo fuel norm refRest acc1
                else alignGo fuel normRest ref1 (acc1 ++ [charNorm])
              | none, some _ =>
                alignGo fuel normRest ref1 (acc1 ++ [charNorm])
              | none, none =>
                alignGo fuel normRest refRest (acc1 ++ [charNorm])

/-- `align_text(normalized_text, refined_text)` of `text_aligner.py`. -/
def align_text (normalized refined : List Char) : List Char :=
  alignGo (normalized.length + refined.length + 1) normalized refined []

/-- Worker for `stripTags`; the fuel is an upper bound on the list length,
so the branch for exhausted fuel is unreachable from `stripTags`. -/
def stripTagsAux : Nat → List Char → List Char
  | 0, l => l
  | _ + 1, [] => []
  | fuel + 1, c :: rest =>
    if c = '[' then
      match splitAtSep ']' rest with
      | some p => stripTagsAux fuel p.2
      | none => c :: stripTagsAux fuel rest
    else c :: stripTagsAux fuel rest

/-- Remove every bracket token `[...]` from a string: at a `'['` that has a
matching later `']'`, drop everything through the first such `']'`; an
unterminated `'['` is kept.  This is the claim's "removing all bracket
tokens" operation (the non-greedy regex `\[.*?\]` replaced by nothing). -/
def stripTags (l : List Char) : List Char :=
  stripTagsAux l.length l

/-- Every `'['` in the list is followed by a later `']'` (no unterminated
opening bracket).  Hypothesis under which the aligner's content-preservation
law holds. -/
def brackOK : List Char → Bool
  | [] => true
  | c :: rest => (!(c == '[') || rest.contains ']') && brackOK rest

/-! ## NumberRomanizer (`text_processor.py`, `number_to_chinese`) -/

/-- The digit table `num_map` of `number_to_chinese` (`text_processor.py`
lines 8-11), indexed by the digit's numeric value.  Only values 0-9 occur
(they come from the decimal digits of a `Nat`); the final catch-all arm is
the digit 9. -/
def chineseDigit (d : Nat) : Char :=
  match d with
  | 0 => '零' | 1 => '一' | 2 => '二' | 3 => '三' | 4 => '四'
  | 5 => '五' | 6 => '六' | 7 => '七' | 8 => '八' | _ => '九'

/-- Decimal digits of `n`, most significant first (Python's `str(n_int)`,
digit values instead of characters).  The fuel is an upper bound on the
number of digits; `natDigits` instantiates it sufficiently. -/
def natDigitsAux : Nat → Nat → List Nat
  | 0, _ => []
  | fuel + 1, n => if n < 10 then [n] else natDigitsAux fuel (n / 10) ++ [n % 10]

/-- Decimal digits of `n`, most significant first. -/
def natDigits (n : Nat) : List Nat :=
  natDigitsAux (n + 1) n

/-- Digit-by-digit rendering
`''.join([num_map.get(d, d) for d in n_str])` (`text_processor.py`
lines 23 and 64): every decimal digit of `str(n_int)` is in `num_map`, so
the `get` default never fires on this path. -/
def digitByDigit (n : Nat) : List Char :=
  (natDigits n).map chineseDigit

/-- `convert_number` of `text_processor.py` (lines 16-64), on the numeric
value of the matched literal.  The source computes `n_int = int(float(n))`;
that round-trip is exact for every value the proofs below use (it is exact
below `2^53`), and its overflow on ≥ 309-digit literals is recorded
separately (claim C9).  Recursion depth is at most 3 (thousands →
hundreds → tens), so fuel 3 suffices. -/
def convertNumberAux : Nat → Nat → List Char
  | 0, _ => []
  | fuel + 1, n =>
    if 1000 ≤ n ∧ n < 10000 ∧ (natDigits n).length = 4 then
      -- year convention: 4-digit numbers are read digit by digit
      digitByDigit n
    else if n < 10000 then
      if n = 0 then ['零']
      else if n < 10 then [chineseDigit n]
      else if n < 20 then
        if n = 10 then ['十'] else ['十', chineseDigit (n % 10)]
      else if n < 100 then
        [chineseDigit (n / 10), '十'] ++
          (if n % 10 > 0 then [chineseDigit (n % 10)] else [])
      else if n < 1000 then
        [chineseDigit (n / 100), '百'] ++
          (if n % 100 > 0 then
            if n % 100 < 10 then ['零', chineseDigit (n % 100)]
            else convertNumberAux fuel (n % 100)
          else [])
      else
        -- dead for direct calls: every n in [1000, 10000) takes the year
        -- branch above; kept to mirror the source (lines 52-61)
        [chineseDigit (n / 1000), '千'] ++
          (if n % 1000 > 0 then
            if n % 1000 < 100 then '零' :: convertNumberAux fuel (n % 1000)
            else convertNumberAux fuel (n % 1000)
          else [])
    else digitByDigit n

/-- `convert_number` on the numeric value of the literal. -/
def convert_number (n : Nat) : List Char :=
  convertNumberAux 3 n

/-- Structure of an aligner output with respect to its normalized input:
the output is exactly the normalized stream, in order and in full — plain
characters kept one by one, manual bracket tokens kept as contiguous
blocks — with whitelisted bracket tokens from the refined stream inserted
in between.  In particular no non-tag character that is absent from the
normalized stream ever reaches the output. -/
inductive AlignedOutput : List Char → List Char → Prop
  | nil : AlignedOutput [] []
  | keep {c : Char} {norm out : List Char} :
      c ≠ '[' → AlignedOutput norm out → AlignedOutput (c :: norm) (c :: out)
  | stray {norm out : List Char} :
      ']' ∉ norm → AlignedOutput norm out →
      AlignedOutput ('[' :: norm) ('[' :: out)
  | block {inner norm out : List Char} :
      ']' ∉ inner → AlignedOutput norm out →
      AlignedOutput ('[' :: (inner ++ ']' :: norm)) ('[' :: (inner ++ ']' :: out))
  | refTag {inner : List Char} {norm out : List Char} :
      ']' ∉ inner → isWhitelistedInner inner = true → AlignedOutput norm out →
      AlignedOutput norm ('[' :: (inner ++ ']' :: out))

/-- A concatenation of whitelisted bracket tokens, as emitted by the
refined-stream tag drain. -/
inductive TagChain : List Char → Prop
  | nil : TagChain []
  | cons {inner rest : List Char} :
      ']' ∉ inner → isWhitelistedInner inner = true → TagChain rest →
      TagChain ('[' :: (inner ++ ']' :: rest))

/-! ## TextCleaner (`text_processor.py`, `number_to_chinese`, `clean_text`) -/

/-- The first code point of every run of Unicode decimal digits (general
category `Nd`), per Unicode 14.0 — the table of the CPython (3.11)
`unicodedata` backing `re`'s `\d`.  Every `Nd` run is exactly ten
consecutive code points carrying the values 0-9 in order, so the run
start determines each digit's value. -/
def ndRangeStarts : List Nat :=
  [48, 1632, 1776, 1984, 2406, 2534, 2662, 2790, 2918, 3046, 3174, 3302, 3430,
   3558, 3664, 3792, 3872, 4160, 4240, 6112, 6160, 6470, 6608, 6784, 6800,
   6992, 7088, 7232, 7248, 42528, 43216, 43264, 43472, 43504, 43600, 44016,
   65296, 66720, 68912, 69734, 69872, 69942, 70096, 70384, 70736, 70864,
   71248, 71360, 71472, 71904, 72016, 72784, 73040, 73120, 92768, 92864,
   93008, 120782, 120792, 120802, 120812, 120822, 123200, 123632, 125264,
   130032]

/-- Numeric value of a character under Python's `\d` (the Unicode decimal
digits, general category `Nd`): the offset of the code point inside its
`Nd` run, `none` when the character is in no run of `ndRangeStarts`. -/
def pyDigitVal (c : Char) : Option Nat :=
  (ndRangeStarts.find? (fun s => decide (s ≤ c.toNat ∧ c.toNat < s + 10))).map
    (fun s => c.toNat - s)

/-- Does the character match Python's `\d`? (See `pyDigitVal`.) -/
def isPyDigit (c : Char) : Bool :=
  (pyDigitVal c).isSome

/-- Is the character an ASCII digit `'0'`-`'9'` (a key of `num_map`)? -/
def isAsciiDigit (c : Char) : Bool :=
  decide (48 ≤ c.toNat ∧ c.toNat ≤ 57)

/-- Every character matching `\d` is an ASCII digit.  Hypothesis under
which `clean_text` is idempotent. -/
def asciiDigitsOnly (l : List Char) : Bool :=
  l.all (fun c => !isPyDigit c || isAsciiDigit c)

/-- Numeric value of a digit string (Python's `int(float(num_str))` for a
literal made of `\d` digits; exact below `2^53` — the literals used in
proofs are tiny, and the overflow on huge literals is claim C9). -/
def digitsVal (l : List Char) : Nat :=
  l.foldl (fun a c => 10 * a + (pyDigitVal c).getD 0) 0

/-- `num_map.get(d, d)`: an ASCII digit maps to its Chinese word, anything
else passes through unchanged. -/
def numMapGet (c : Char) : Char :=
  if 48 ≤ c.toNat ∧ c.toNat ≤ 57 then chineseDigit (c.toNat - 48) else c

/-- Greedy match of the regex `\d+\.?\d*` starting at the head of `l`
(the head is known to be a digit): the integer digit run, the optional
fractional digit run (present iff a `'.'` followed the integer run), and
the remainder of the string. -/
def matchNumber (l : List Char) : List Char × Option (List Char) × List Char :=
  let s1 := l.span isPyDigit
  match s1.2 with
  | [] => (s1.1, none, [])
  | c :: r2 =>
    if c = '.' then
      let s2 := r2.span isPyDigit
      (s1.1, some s2.1, s2.2)
    else (s1.1, none, c :: r2)

/-- `replace_number` of `number_to_chinese` (`text_processor.py` lines
66-76): a decimal literal becomes integer part, the word `点`, and the
fractional digits mapped through `num_map.get(d, d)`; an integer literal
goes through `convert_number`. -/
def replaceNumber (intPart : List Char) (frac : Option (List Char)) : List Char :=
  match frac with
  | some fracPart => convert_number (digitsVal intPart) ++ '点' :: fracPart.map numMapGet
  | none => convert_number (digitsVal intPart)

/-- The unit suffixes of the first substitution pass: the regex class
`[万千百十]` (`text_processor.py` line 87). -/
def isUnitChar (c : Char) : Bool :=
  c = '万' || c = '千' || c = '百' || c = '十'

/-- First pass of `number_to_chinese`:
`re.sub(r'(\d+\.?\d*)([万千百十])', replace_with_unit, num_str)`.  At a
digit, the greedy maximal match must be followed by a unit character (any
shorter backtracked match would be followed by a digit or `'.'`, never a
unit, so backtracking cannot succeed); on failure the scan advances one
character, as `re.sub` does.  The converted number keeps only the integer
part (`int(float(...))` truncates), and the unit character is appended
verbatim.  Fuel: one unit per emitted character, `l.length` suffices. -/
def subUnitNumbers : Nat → List Char → List Char
  | 0, l => l
  | _ + 1, [] => []
  | fuel + 1, c :: rest =>
    if isPyDigit c then
      match (matchNumber (c :: rest)).2.2 with
      | u :: tail2 =>
        if isUnitChar u then
          convert_number (digitsVal (matchNumber (c :: rest)).1) ++
            u :: subUnitNumbers fuel tail2
        else c :: subUnitNumbers fuel rest
      | [] => c :: subUnitNumbers fuel rest
    else c :: subUnitNumbers fuel rest

/-- Second pass of `number_to_chinese`:
`re.sub(r'\d+\.?\d*', replace_number, result)`. -/
def subNumbers : Nat → List Char → List Char
  | 0, l => l
  | _ + 1, [] => []
  | fuel + 1, c :: rest =>
    if isPyDigit c then
      replaceNumber (matchNumber (c :: rest)).1 (matchNumber (c :: rest)).2.1 ++
        subNumbers fuel (matchNumber (c :: rest)).2.2
    else c :: subNumbers fuel rest

/-- `number_to_chinese` of `text_processor.py` (lines 5-91): the
unit-suffix pass followed by the generic numeric pass. -/
def number_to_chinese (l : List Char) : List Char :=
  subNumbers (subUnitNumbers l.length l).length (subUnitNumbers l.length l)

/-- Remove trailing whitespace. -/
def dropTrailingWS : List Char → List Char
  | [] => []
  | c :: rest =>
    match dropTrailingWS rest with
    | [] => if c.isWhitespace then [] else [c]
    | r => c :: r

/-- Python's `str.strip()`: drop leading and trailing whitespace.
`Char.isWhitespace` covers space, tab, CR and LF; Python also strips a few
rarer Unicode whitespace characters, which no claim exercises. -/
def pyStrip (l : List Char) : List Char :=
  dropTrailingWS (l.dropWhile Char.isWhitespace)

/-- Python's `sep.join(xs)`: the fragments with `sep` in between. -/
def joinWith (sep : List Char) : List (List Char) → List Char
  | [] => []
  | [x] => x
  | x :: y :: t => x ++ sep ++ joinWith sep (y :: t)

/-- Python's `s.split(sep)` for a one-character separator: fragments
between occurrences of `sep`, keeping empty fragments. -/
def splitOnChar (sep : Char) : List Char → List (List Char)
  | [] => [[]]
  | c :: rest =>
    if c = sep then [] :: splitOnChar sep rest
    else
      match splitOnChar sep rest with
      | [] => [[c]]
      | h :: t => (c :: h) :: t

/-- The comma normalization of `clean_text`
(`text.replace('，', '。').replace(',', '。')`, line 105). -/
def commaMap (c : Char) : Char :=
  if c = '，' then '。' else if c = ',' then '。' else c

/-- `clean_text` of `text_processor.py` (lines 94-117): romanize numbers,
commas to full stops, split into sentences at `'。'`, strip each, drop
empties, drop ASCII spaces, rejoin one sentence per line with a trailing
`'。'`. -/
def clean_text (text : List Char) : List Char :=
  let t2 := (number_to_chinese text).map commaMap
  let sentences := ((splitOnChar '。' t2).map pyStrip).filter (fun s => !s.isEmpty)
  let cleaned := sentences.map (fun s => s.filter (fun c => !(c == ' ')))
  joinWith ['\n'] ((cleaned.filter (fun s => !s.isEmpty)).map (fun s => s ++ ['。']))

/-- Characters that the number conversion may introduce are "safe" for the
cleaner: they are not digits, sentence stops, commas, spaces or newlines,
so the later cleaning steps leave them alone. -/
def cleanSafeChar (c : Char) : Bool :=
  !isPyDigit c && !(c == '。') && !(c == '，') && !(c == ',') &&
    !(c == ' ') && !(c == '\n')

/-- The sentence units of `clean_text`: the list whose elements are joined,
each with a `'。'` appended and separated by `'\n'`, on the last line of
`clean_text`.  `clean_text text = joinWith` applied to
`(cleanUnits text).map (fun s => s ++ ['。'])` holds by definition. -/
def cleanUnits (text : List Char) : List (List Char) :=
  let t2 := (number_to_chinese text).map commaMap
  let sentences := ((splitOnChar '。' t2).map pyStrip).filter (fun s => !s.isEmpty)
  let cleaned := sentences.map (fun s => s.filter (fun c => !(c == ' ')))
  cleaned.filter (fun s => !s.isEmpty)

/-! ## ParagraphPacker (`text_processor.py`, `merge_paragraphs`) -/

/-- Python's `line.rfind(marker, 0, endPos)`: the largest start index such
that the whole occurrence of `marker` fits inside `line[0:endPos]`,
`none` when there is no such occurrence. -/
def rfindWithin (marker l : List Char) (endPos : Nat) : Option Nat :=
  ((List.range (endPos + 1 - marker.length)).filter
    (fun i => marker.isPrefixOf (l.drop i))).getLast?

/-- The cut markers tried by `split_long_text`, in priority order
(`text_processor.py` line 187): `['。', '，', '[uv_break]', '。', '、']`
(the source lists `'。'` twice). -/
def cutMarkers : List (List Char) :=
  [['。'], ['，'], "[uv_break]".toList, ['。'], ['、']]

/-- Marker scan of `split_long_text` (lines 186-191): the first marker in
priority order whose rightmost occurrence inside the window lies strictly
after 70% of the limit wins; the cut falls just after it.  The source
compares `pos > max_len * 0.7` in floating point; it is modelled by the
exact rational comparison `10 * pos > 7 * maxLen`, which agrees with the
float comparison at every value appearing in this development. -/
def findCutPosGo (line : List Char) (maxLen : Nat) : List (List Char) → Nat
  | [] => maxLen
  | m :: ms =>
    match rfindWithin m line maxLen with
    | some pos =>
      if 10 * pos > 7 * maxLen then pos + m.length else findCutPosGo line maxLen ms
    | none => findCutPosGo line maxLen ms

/-- The cut position chosen for an over-long line: a winning marker, or the
hard cut exactly at the limit. -/
def findCutPos (line : List Char) (maxLen : Nat) : Nat :=
  findCutPosGo line maxLen cutMarkers

/-- `'\n'.join(...)`. -/
def joinLines (xs : List (List Char)) : List Char :=
  joinWith ['\n'] xs

/-- `'\n\n'.join(...)`. -/
def joinParas (xs : List (List Char)) : List Char :=
  joinWith ['\n', '\n'] xs

/-- The line list of `split_long_text` for text containing `'\n'`
(lines 158-161): split on newlines, strip, drop empties. -/
def pyLines (text : List Char) : List (List Char) :=
  ((splitOnChar '\n' text).map pyStrip).filter (fun s => !s.isEmpty)

/-- The line list of `split_long_text` for text without `'\n'`
(line 164): split on `'。'`, keep non-blank fragments stripped and
re-terminated with `'。'`. -/
def sentenceLines (text : List Char) : List (List Char) :=
  ((splitOnChar '。' text).filter (fun s => !(pyStrip s).isEmpty)).map
    (fun s => pyStrip s ++ ['。'])

/-- The accumulation loop of `split_long_text` (`text_processor.py` lines
166-244), with the recursive call abstracted as `recur` (it is
`split_long_text` at the next depth).  State: remaining lines, emitted
segments, current accumulation and its character count (which, as in the
source, ignores the joining newlines).  The source's inner
`if line_len > max_len` re-check at line 184 is always true inside the
`line_len > max_len` branch and the dead `else` (lines 206-208) is
omitted. -/
def splitLoop (recur : List Char → List (List Char)) (maxLen : Nat) :
    List (List Char) → List (List Char) → List (List Char) → Nat → List (List Char)
  | [], result, current, _ =>
    if current.isEmpty then result
    else
      let seg := joinLines current
      if seg.length > maxLen then result ++ recur seg else result ++ [seg]
  | line :: rest, result, current, currentLen =>
    if line.length > maxLen then
      let result1 :=
        if current.isEmpty then result else result ++ [joinLines current]
      let cutPos := findCutPos line maxLen
      let firstPart := pyStrip (line.take cutPos)
      let remainingPart := pyStrip (line.drop cutPos)
      let result2 := if firstPart.isEmpty then result1 else result1 ++ [firstPart]
      if remainingPart.isEmpty then
        splitLoop recur maxLen rest result2 [] 0
      else if remainingPart.length > maxLen then
        splitLoop recur maxLen rest (result2 ++ recur remainingPart) [] 0
      else
        splitLoop recur maxLen rest result2 [remainingPart] remainingPart.length
    else if currentLen + line.length ≥ maxLen ∧ current.isEmpty = false then
      let seg := joinLines current
      if seg.length ≤ maxLen ∧ seg.length + line.length + 1 ≤ maxLen then
        splitLoop recur maxLen rest result (current ++ [line]) (currentLen + line.length)
      else
        let result1 :=
          if seg.length ≤ maxLen then result ++ [seg] else result ++ recur seg
        splitLoop recur maxLen rest result1 [line] line.length
    else
      splitLoop recur maxLen rest result (current ++ [line]) (currentLen + line.length)

/-- `split_long_text(text, max_len, depth)` of `text_processor.py`
(lines 141-244).  The source's `depth` counter is mirrored as fuel
`11 - depth`: a call at `depth > 10` (fuel 0) returns immediately,
truncating to the first `max_len` characters when the text is longer
(lines 150-152). -/
def splitLongText : Nat → List Char → Nat → List (List Char)
  | 0, text, maxLen => if text.length > maxLen then [text.take maxLen] else [text]
  | fuel + 1, text, maxLen =>
    if text.length ≤ maxLen then [text]
    else
      let lines := if text.contains '\n' then pyLines text else sentenceLines text
      splitLoop (fun t => splitLongText fuel t maxLen) maxLen lines [] [] 0

/-- `split_long_text` at depth 0. -/
def split_long_text (text : List Char) (maxLen : Nat) : List (List Char) :=
  splitLongText 11 text maxLen

/-- The paragraph accumulation loop of `merge_paragraphs`
(`text_processor.py` lines 249-297).  Returns the `merged` list and the
pending segment with its character count.  The float thresholds
`max_chars * 0.75` (exact in binary) and `max_chars * 0.9` are modelled by
the exact rational comparisons `4*len ≥ 3*max` and `10*len ≥ 9*max`, which
agree with the source's float comparisons at every value appearing in this
development. -/
def mergeLoop (maxChars : Nat) :
    List (List Char) → List (List Char) → List (List Char) → Nat →
    List (List Char) × List (List Char) × Nat
  | [], merged, curSeg, curLen => (merged, curSeg, curLen)
  | para :: rest, merged, curSeg, curLen =>
    if para.length > maxChars then
      let merged1 :=
        if curSeg.isEmpty then merged
        else
          let segText := joinParas curSeg
          if segText.length > maxChars then merged ++ split_long_text segText maxChars
          else merged ++ [segText]
      mergeLoop maxChars rest (merged1 ++ split_long_text para maxChars) [] 0
    else if curLen + para.length > maxChars ∧ curSeg.isEmpty = false then
      let segText := joinParas curSeg
      let merged1 :=
        if segText.length > maxChars then merged ++ split_long_text segText maxChars
        else merged ++ [segText]
      mergeLoop maxChars rest merged1 [para] para.length
    else
      let curSeg1 := curSeg ++ [para]
      let curLen1 := curLen + para.length
      if 4 * curLen1 ≥ 3 * maxChars ∨ 10 * curLen1 ≥ 9 * maxChars then
        let segText := joinParas curSeg1
        if segText.length > maxChars then
          mergeLoop maxChars rest (merged ++ split_long_text segText maxChars) [] 0
        else
          mergeLoop maxChars rest (merged ++ [segText]) [] 0
      else mergeLoop maxChars rest merged curSeg1 curLen1

/-- The leftover handling of `merge_paragraphs` (lines 299-313): flush the
pending segment, merging it backward into the previous unit when it is
shorter than `min_chars` and fits. -/
def mergeFinishTail (minChars maxChars : Nat)
    (merged curSeg : List (List Char)) : List (List Char) :=
  if curSeg.isEmpty then merged
  else
    let segText := joinParas curSeg
    if segText.length > maxChars then merged ++ split_long_text segText maxChars
    else if segText.length < minChars ∧ merged.isEmpty = false then
      let last := merged.getLastD []
      if last.length + segText.length ≤ maxChars then
        merged.dropLast ++ [last ++ '\n' :: '\n' :: segText]
      else merged ++ [segText]
    else merged ++ [segText]

/-- The final re-check of `merge_paragraphs` (lines 315-321): any merged
segment still longer than `max_chars` is split once more. -/
def finalCheck (maxChars : Nat) (merged : List (List Char)) : List (List Char) :=
  merged.flatMap (fun seg =>
    if seg.length > maxChars then split_long_text seg maxChars else [seg])

/-- `merge_paragraphs(paragraphs, min_chars, max_chars)` of
`text_processor.py` (lines 129-323). -/
def merge_paragraphs (paragraphs : List (List Char)) (minChars maxChars : Nat) :
    List (List Char) :=
  if paragraphs.isEmpty then []
  else
    let r := mergeLoop maxChars paragraphs [] [] 0
    finalCheck maxChars (mergeFinishTail minChars maxChars r.1 r.2.1)

/-- Characters that the packer may insert on its own: the sentence stop
added by `sentenceLines` and the joining newlines.  Everything else in the
packer's output comes from the input, in order (see
`merge_paragraphs_content_sublist`). -/
def keepChar (c : Char) : Bool :=
  !(c == '。') && !(c == '\n')

/-- Erase the separator characters the packer inserts. -/
def eraseSep (l : List Char) : List Char :=
  l.filter keepChar

/-- Modelled from the spec (§4.5 split rule), for refutation only: "pick a
cut point at or before the size limit, preferring (in priority order) the
rightmost sentence-ending punctuation, then the rightmost comma, found no
earlier than half the limit from the start; fall back to a hard cut exactly
at the limit if no such punctuation exists."  The cut falls just after the
winning marker. -/
def specCutPos (line : List Char) (maxLen : Nat) : Nat :=
  let sentCut :=
    match rfindWithin ['。'] line maxLen with
    | some pos => if 2 * pos ≥ maxLen then some (pos + 1) else none
    | none => none
  let commaCut :=
    match rfindWithin ['，'] line maxLen with
    | some pos => if 2 * pos ≥ maxLen then some (pos + 1) else none
    | none => none
  (sentCut.orElse (fun _ => commaCut)).getD maxLen

/-! ## BuildOrchestrator cache check (`cli.py`, `build_podcast`) -/

/-- `f"segment_{i:03d}"`-style zero-padded ordinal. -/
def padNum3 (i : Nat) : List Char :=
  let s := (natDigits i).map (fun d => Char.ofNat (48 + d))
  if 3 ≤ s.length then s else List.replicate (3 - s.length) '0' ++ s

/-- The audio artifact name used by the normal build loop of
`build_podcast` (`cli.py` line 279): `f"segment_{i:03d}.wav"` — it depends
only on the ordinal `i`. -/
def audioFilename (i : Nat) : List Char :=
  "segment_".toList ++ padNum3 i ++ ".wav".toList

/-- The skip decision of the build loop (`cli.py` line 282):
`audio_path.exists() and not force`, with the existing artifact set
modelled as a list of file names.  The unit's text and voice seed are in
scope at the decision point (they determine `seg_hash`, used only to name
the markdown inspection file, line 272) and are carried here as parameters
to state that the decision does not consult them. -/
def unitSkipped (existingFiles : List (List Char)) (i : Nat)
    (_text : List Char) (_seed : Nat) (force : Bool) : Bool :=
  existingFiles.contains (audioFilename i) && !force

/-! ## Theorems -/

theorem splitAtSep_eq_some {sep : Char} {l a b : List Char}
    (h : splitAtSep sep l = some (a, b)) : l = a ++ sep :: b ∧ sep ∉ a := by
  induction l generalizing a with
  | nil => simp [splitAtSep] at h
  | cons c rest ih =>
    by_cases hc : c = sep
    · simp [splitAtSep, hc] at h
      obtain ⟨rfl, rfl⟩ := h
      simp [hc]
    · simp only [splitAtSep, hc, if_false, Option.map_eq_some'] at h
      obtain ⟨p, hp, hpe⟩ := h
      have hpe' : c :: p.1 = a ∧ p.2 = b := by
        constructor <;> [exact congrArg Prod.fst hpe; exact congrArg Prod.snd hpe]
      obtain ⟨rfl, rfl⟩ := hpe'
      obtain ⟨h1, h2⟩ := ih hp
      refine ⟨by simp [← h1], ?_⟩
      simp [h2, Ne.symm hc]

theorem splitAtSep_eq_none {sep : Char} {l : List Char}
    (h : splitAtSep sep l = none) : sep ∉ l := by
  induction l with
  | nil => simp
  | cons c rest ih =>
    by_cases hc : c = sep
    · simp [splitAtSep, hc] at h
    · simp only [splitAtSep, hc, if_false, Option.map_eq_none'] at h
      simp [ih h, Ne.symm hc, hc]

theorem splitAtSep_of_decomp {sep : Char} {inner rest : List Char}
    (h : sep ∉ inner) : splitAtSep sep (inner ++ sep :: rest) = some (inner, rest) := by
  induction inner with
  | nil => simp [splitAtSep]
  | cons c cs ih =>
    have hc : c ≠ sep := by intro hcc; exact h (by simp [hcc])
    have hcs : sep ∉ cs := fun hm => h (by simp [hm])
    simp [splitAtSep, hc, ih hcs]

theorem consumeSameTag_length_le (tag ref : List Char) :
    (consumeSameTag tag ref).length ≤ ref.length := by
  cases ref with
  | nil => simp [consumeSameTag]
  | cons c refRest =>
    by_cases hc : c = '['
    · simp only [consumeSameTag, hc, if_true]
      cases hs : splitAtSep ']' refRest with
      | none => simp
      | some p =>
        obtain ⟨rinner, rafter⟩ := p
        have := (splitAtSep_eq_some hs).1
        by_cases ht : '[' :: (rinner ++ [']']) = tag <;>
          simp [ht, this] <;> omega
    · simp [consumeSameTag, hc]

theorem tagChain_prepend {tags : List Char} (h : TagChain tags)
    {norm out : List Char} (ho : AlignedOutput norm out) :
    AlignedOutput norm (tags ++ out) := by
  induction h with
  | nil => simpa using ho
  | cons hni hw _ ih =>
    simpa using AlignedOutput.refTag hni hw ih

theorem drainAux_spec : ∀ (fuel : Nat) (ref acc : List Char), ref.length ≤ fuel →
    ∃ tags ref', drainAux fuel ref acc = (ref', acc ++ tags) ∧
      ref'.length ≤ ref.length ∧ TagChain tags := by
  intro fuel
  induction fuel with
  | zero =>
    intro ref acc h
    have : ref = [] := by
      cases ref <;> simp_all
    subst this
    exact ⟨[], [], by simp [drainAux], by simp, TagChain.nil⟩
  | succ fuel ih =>
    intro ref acc h
    cases ref with
    | nil => exact ⟨[], [], by simp [drainAux], by simp, TagChain.nil⟩
    | cons c rest =>
      by_cases hc : c = '['
      · subst hc
        cases hs : splitAtSep ']' rest with
        | none =>
          exact ⟨[], '[' :: rest, by simp [drainAux, hs], by simp, TagChain.nil⟩
        | some p =>
          obtain ⟨inner, after⟩ := p
          obtain ⟨hdec, hnotin⟩ := splitAtSep_eq_some hs
          have hlen : after.length ≤ fuel := by
            simp only [List.length_cons, hdec, List.length_append, List.length_cons] at h
            omega
          have hafter_le : after.length ≤ ('[' :: rest).length := by
            simp [hdec]; omega
          by_cases hw : isWhitelistedInner inner
          · by_cases hsuf : ('[' :: (inner ++ [']'])).isSuffixOf acc
            · obtain ⟨tags, ref', he, hl, hch⟩ := ih after acc hlen
              exact ⟨tags, ref', by simp [drainAux, hs, hw, hsuf, he], le_trans hl hafter_le, hch⟩
            · obtain ⟨tags, ref', he, hl, hch⟩ :=
                ih after (acc ++ ('[' :: (inner ++ [']']))) hlen
              refine ⟨'[' :: (inner ++ ']' :: tags), ref', ?_, le_trans hl hafter_le,
                TagChain.cons hnotin hw hch⟩
              simp only [drainAux, hs, hw, hsuf, if_true, if_false, ite_true]
              rw [he]
              simp
          · obtain ⟨tags, ref', he, hl, hch⟩ := ih after acc hlen
            exact ⟨tags, ref', by simp [drainAux, hs, hw, he], le_trans hl hafter_le, hch⟩
      · exact ⟨[], c :: rest, by simp [drainAux, hc], by simp, TagChain.nil⟩

theorem alignedOutput_refl_aux : ∀ (n : Nat) (norm : List Char),
    norm.length ≤ n → AlignedOutput norm norm := by
  intro n
  induction n with
  | zero =>
    intro norm h
    have : norm = [] := by cases norm <;> simp_all
    subst this
    exact AlignedOutput.nil
  | succ n ih =>
    intro norm h
    cases norm with
    | nil => exact AlignedOutput.nil
    | cons c rest =>
      by_cases hc : c = '['
      · subst hc
        cases hs : splitAtSep ']' rest with
        | none =>
          exact AlignedOutput.stray (splitAtSep_eq_none hs)
            (ih rest (by simp at h; omega))
        | some p =>
          obtain ⟨inner, after⟩ := p
          obtain ⟨hdec, hnotin⟩ := splitAtSep_eq_some hs
          have : after.length ≤ n := by
            simp [hdec] at h ⊢; omega
          rw [hdec]
          exact AlignedOutput.block hnotin (ih after this)
      · exact AlignedOutput.keep hc (ih rest (by simp at h; omega))

/-- Every list is an aligned output of itself (the aligner with an empty
refined stream copies the normalized stream verbatim). -/
theorem alignedOutput_refl (norm : List Char) : AlignedOutput norm norm :=
  alignedOutput_refl_aux norm.length norm (le_refl _)

theorem alignGo_spec : ∀ (fuel : Nat) (norm ref acc : List Char),
    norm.length + ref.length < fuel →
    ∃ out, alignGo fuel norm ref acc = acc ++ out ∧ AlignedOutput norm out := by
  intro fuel
  induction fuel with
  | zero => intro norm ref acc h; omega
  | succ fuel ih =>
    intro norm ref acc h
    cases norm with
    | nil => exact ⟨[], by simp [alignGo], AlignedOutput.nil⟩
    | cons charNorm normRest =>
      cases hm : (if charNorm = '[' then splitAtSep ']' normRest else none) with
      | some p =>
        obtain ⟨inner, normAfter⟩ := p
        have hcn : charNorm = '[' := by
          by_contra hcn; simp [hcn] at hm
        have hs : splitAtSep ']' normRest = some (inner, normAfter) := by
          simpa [hcn] using hm
        obtain ⟨hdec, hnotin⟩ := splitAtSep_eq_some hs
        have hb : normAfter.length + (consumeSameTag ('[' :: (inner ++ [']'])) ref).length < fuel := by
          have := consumeSameTag_length_le ('[' :: (inner ++ [']'])) ref
          simp only [List.length_cons, hdec, List.length_append, List.length_cons] at h
          omega
        obtain ⟨out', he, hsh⟩ := ih normAfter _ (acc ++ ('[' :: (inner ++ [']']))) hb
        refine ⟨('[' :: (inner ++ [']'])) ++ out', ?_, ?_⟩
        · simp only [alignGo, hm]
          rw [he]
          simp
        · rw [hdec, hcn]
          have := @AlignedOutput.block inner _ _ hnotin hsh
          simpa using this
      | none =>
        have hsp : charNorm = '[' → splitAtSep ']' normRest = none := by
          intro hcc; simpa [hcc] using hm
        have hkeep : ∀ out : List Char, AlignedOutput normRest out →
            AlignedOutput (charNorm :: normRest) (charNorm :: out) := by
          intro out ho
          by_cases hcn : charNorm = '['
          · subst hcn
            exact AlignedOutput.stray (splitAtSep_eq_none (hsp rfl)) ho
          · exact AlignedOutput.keep hcn ho
        obtain ⟨tags, ref1, hde, hrl, hch⟩ := drainAux_spec ref.length ref acc (le_refl _)
        have hdt : drainTags ref acc = (ref1, acc ++ tags) := hde
        cases href1 : ref1 with
        | nil =>
          refine ⟨tags ++ (charNorm :: normRest), ?_, ?_⟩
          · simp only [alignGo, hm, hdt, href1]
            simp
          · exact tagChain_prepend hch (alignedOutput_refl _)
        | cons charRef refRest =>
          subst href1
          have hr1 : refRest.length + 1 ≤ ref.length := by
            simpa using hrl
          by_cases hcr : charRef = charNorm
          · have hb : normRest.length + refRest.length < fuel := by
              simp only [List.length_cons] at h; omega
            obtain ⟨out', he, hsh⟩ := ih normRest refRest ((acc ++ tags) ++ [charNorm]) hb
            refine ⟨tags ++ (charNorm :: out'), ?_, ?_⟩
            · simp only [alignGo, hm, hdt, hcr, if_true]
              rw [he]
              simp
            · exact tagChain_prepend hch (hkeep out' hsh)
          · -- mismatch: the two bounded lookaheads decide the branch
            have hbskip : (charNorm :: normRest).length + refRest.length < fuel := by
              simp only [List.length_cons] at h ⊢; omega
            have hbnorm : normRest.length + (charRef :: refRest).length < fuel := by
              simp only [List.length_cons] at h ⊢; omega
            have hbboth : normRest.length + refRest.length < fuel := by
              simp only [List.length_cons] at h; omega
            cases hfr : lookWindow charNorm (charRef :: refRest) with
            | some k =>
              cases hfn : lookWindow charRef (charNorm :: normRest) with
              | none =>
                obtain ⟨out', he, hsh⟩ := ih (charNorm :: normRest) refRest (acc ++ tags) hbskip
                refine ⟨tags ++ out', ?_, tagChain_prepend hch hsh⟩
                simp only [alignGo, hm, hdt, hcr, if_false, hfr, hfn]
                rw [he]
                simp
              | some m =>
                by_cases hkm : k < m
                · obtain ⟨out', he, hsh⟩ := ih (charNorm :: normRest) refRest (acc ++ tags) hbskip
                  refine ⟨tags ++ out', ?_, tagChain_prepend hch hsh⟩
                  simp only [alignGo, hm, hdt, hcr, if_false, hfr, hfn, hkm, if_true]
                  rw [he]
                  simp
                · obtain ⟨out', he, hsh⟩ :=
                    ih normRest (charRef :: refRest) ((acc ++ tags) ++ [charNorm]) hbnorm
                  refine ⟨tags ++ (charNorm :: out'), ?_, tagChain_prepend hch (hkeep out' hsh)⟩
                  simp only [alignGo, hm, hdt, hcr, if_false, hfr, hfn, hkm]
                  rw [he]
                  simp
            | none =>
              cases hfn : lookWindow charRef (charNorm :: normRest) with
              | some m =>
                obtain ⟨out', he, hsh⟩ :=
                  ih normRest (charRef :: refRest) ((acc ++ tags) ++ [charNorm]) hbnorm
                refine ⟨tags ++ (charNorm :: out'), ?_, tagChain_prepend hch (hkeep out' hsh)⟩
                simp only [alignGo, hm, hdt, hcr, if_false, hfr, hfn]
                rw [he]
                simp
              | none =>
                obtain ⟨out', he, hsh⟩ :=
                  ih normRest refRest ((acc ++ tags) ++ [charNorm]) hbboth
                refine ⟨tags ++ (charNorm :: out'), ?_, tagChain_prepend hch (hkeep out' hsh)⟩
                simp only [alignGo, hm, hdt, hcr, if_false, hfr, hfn]
                rw [he]
                simp

/-- Structure theorem for `align_text`: helper used by several claims. -/
theorem align_text_alignedOutput (normalized refined : List Char) :
    AlignedOutput normalized (align_text normalized refined) := by
  obtain ⟨out, he, hsh⟩ :=
    alignGo_spec (normalized.length + refined.length + 1) normalized refined []
      (by omega)
  rw [align_text, he]
  simpa using hsh

theorem splitAtSep_none_of_not_mem {sep : Char} {l : List Char} (h : sep ∉ l) :
    splitAtSep sep l = none := by
  induction l with
  | nil => rfl
  | cons c rest ih =>
    have hc : c ≠ sep := fun hcc => h (by simp [hcc])
    have : sep ∉ rest := fun hm => h (by simp [hm])
    simp [splitAtSep, hc, ih this]

theorem stripTagsAux_congr : ∀ (f1 f2 : Nat) (l : List Char),
    l.length ≤ f1 → l.length ≤ f2 → stripTagsAux f1 l = stripTagsAux f2 l := by
  intro f1
  induction f1 with
  | zero =>
    intro f2 l h1 h2
    have : l = [] := by cases l <;> simp_all
    subst this
    cases f2 <;> rfl
  | succ f1 ih =>
    intro f2 l h1 h2
    cases l with
    | nil => cases f2 <;> rfl
    | cons c rest =>
      cases f2 with
      | zero => simp at h2
      | succ f2 =>
        simp only [List.length_cons] at h1 h2
        by_cases hc : c = '['
        · cases hs : splitAtSep ']' rest with
          | some p =>
            have hd := (splitAtSep_eq_some hs).1
            have hp1 : p.2.length ≤ f1 := by
              have := congrArg List.length hd
              simp at this; omega
            have hp2 : p.2.length ≤ f2 := by
              have := congrArg List.length hd
              simp at this; omega
            simp only [stripTagsAux, hc, if_true, hs]
            exact ih f2 p.2 hp1 hp2
          | none =>
            simp only [stripTagsAux, hc, if_true, hs]
            rw [ih f2 rest (by omega) (by omega)]
        · simp only [stripTagsAux, hc, if_false]
          rw [ih f2 rest (by omega) (by omega)]

theorem stripTagsAux_eq_stripTags (fuel : Nat) (l : List Char)
    (h : l.length ≤ fuel) : stripTagsAux fuel l = stripTags l :=
  stripTagsAux_congr fuel l.length l h (le_refl _)

theorem stripTags_cons_ne {c : Char} (h : c ≠ '[') (l : List Char) :
    stripTags (c :: l) = c :: stripTags l := by
  simp [stripTags, stripTagsAux, h]

theorem stripTags_block {inner rest : List Char} (h : ']' ∉ inner) :
    stripTags ('[' :: (inner ++ ']' :: rest)) = stripTags rest := by
  simp only [stripTags, List.length_cons, stripTagsAux, if_pos rfl,
    splitAtSep_of_decomp h]
  exact stripTagsAux_eq_stripTags _ _ (by simp; omega)

theorem stripTags_stray {rest : List Char} (h : ']' ∉ rest) :
    stripTags ('[' :: rest) = '[' :: stripTags rest := by
  simp only [stripTags, List.length_cons, stripTagsAux, if_pos rfl,
    splitAtSep_none_of_not_mem h, if_true]

theorem brackOK_tail {c : Char} {rest : List Char} (h : brackOK (c :: rest) = true) :
    brackOK rest = true := by
  simp only [brackOK, Bool.and_eq_true] at h
  exact h.2

theorem brackOK_bracket {rest : List Char} (h : brackOK ('[' :: rest) = true) :
    ']' ∈ rest := by
  simp only [brackOK, Bool.and_eq_true, Bool.or_eq_true] at h
  rcases h.1 with h1 | h1
  · simp at h1
  · simpa using h1

theorem brackOK_suffix : ∀ (a b : List Char), brackOK (a ++ b) = true → brackOK b = true := by
  intro a
  induction a with
  | nil => intro b h; simpa using h
  | cons c rest ih => intro b h; exact ih b (brackOK_tail h)

/-- Under `brackOK`, every aligned output strips to the same text as its
normalized input. -/
theorem alignedOutput_stripTags {norm out : List Char} (h : AlignedOutput norm out)
    (hb : brackOK norm = true) : stripTags out = stripTags norm := by
  induction h with
  | nil => rfl
  | keep hc _ ih =>
    rw [stripTags_cons_ne hc, stripTags_cons_ne hc, ih (brackOK_tail hb)]
  | stray hni _ _ =>
    exact absurd (brackOK_bracket hb) hni
  | block hni _ ih =>
    rename_i inner norm' out' _
    rw [stripTags_block hni, stripTags_block hni]
    have : brackOK norm' = true := by
      have := brackOK_suffix ('[' :: inner ++ [']']) norm' (by simpa using hb)
      exact this
    exact ih this
  | refTag hni _ _ ih =>
    rw [stripTags_block hni]
    exact ih hb

/-- C7: tag whitelist filtering in the Aligner.  Every bracket token taken
from the refined stream into the output is whitelisted (`AlignedOutput`
only allows refined-side insertions through its `refTag` constructor, which
demands a whitelisted prefix), every character and manual bracket token of
the normalized stream is preserved contiguously and in order, and any other
bracket token of the refined stream is discarded: concretely, a
`[speaker_2]` tag in the refined stream is dropped entirely. -/
theorem align_text_whitelist_filtering :
    (∀ normalized refined : List Char,
      AlignedOutput normalized (align_text normalized refined)) ∧
    align_text "今天天气很好。".toList "今天[speaker_2]天气很好。".toList =
      "今天天气很好。".toList :=
  ⟨align_text_alignedOutput, by decide⟩

/-- C1 (counterexample): the content-preservation law as stated fails.  With
`normalized = "ab[cd"` (an unterminated `'['`) and
`refined = "abc[break_1]d"`, the aligner output is `"ab[c[break_1]d"`;
removing bracket tokens from it yields `"abd"`, while `normalized` with
bracket tokens removed is `"ab[cd"` — the character `c` was swallowed by
the stray bracket. -/
theorem align_text_content_preservation_cx :
    ¬ (stripTags (align_text "ab[cd".toList "abc[break_1]d".toList) =
       stripTags "ab[cd".toList) := by decide

/-- C1 (amended): content-preservation law of the Aligner, under the proviso
that every `'['` of the normalized stream has a later matching `']'`.  Then
removing all bracket tokens from `align_text normalized refined` yields
exactly `normalized` with its own bracket tokens removed; moreover (by
`AlignedOutput`) every character of `normalized` appears in the output in
original order and no non-tag character of `refined` absent from
`normalized` is emitted. -/
theorem align_text_content_preservation (normalized refined : List Char)
    (h : brackOK normalized = true) :
    stripTags (align_text normalized refined) = stripTags normalized :=
  alignedOutput_stripTags (align_text_alignedOutput normalized refined) h

/-- C1 witness: the amended law evaluated on the spec's own alignment
scenario. -/
theorem align_text_content_preservation_witness :
    brackOK "今天天气很好。".toList = true ∧
    stripTags (align_text "今天天气很好。".toList
        "今天[break_6]天气很好啊。".toList) =
      stripTags "今天天气很好。".toList :=
  ⟨by decide, align_text_content_preservation _ _ (by decide)⟩

theorem natDigitsAux_congr : ∀ (f1 f2 n : Nat), 0 < f1 → 0 < f2 →
    n < 10 ^ f1 → n < 10 ^ f2 → natDigitsAux f1 n = natDigitsAux f2 n := by
  intro f1
  induction f1 with
  | zero => intro f2 n h1 _ _ _; omega
  | succ f1 ih =>
    intro f2 n _ h2 hb1 hb2
    cases f2 with
    | zero => omega
    | succ f2 =>
      by_cases hn : n < 10
      · simp [natDigitsAux, hn]
      · have hf1 : 0 < f1 := by
          by_contra hf
          have : f1 = 0 := by omega
          subst this
          simp at hb1; omega
        have hf2 : 0 < f2 := by
          by_contra hf
          have : f2 = 0 := by omega
          subst this
          simp at hb2; omega
        have hd1 : n / 10 < 10 ^ f1 := by
          rw [Nat.div_lt_iff_lt_mul (by omega)]
          calc n < 10 ^ (f1 + 1) := hb1
          _ = 10 ^ f1 * 10 := by ring
        have hd2 : n / 10 < 10 ^ f2 := by
          rw [Nat.div_lt_iff_lt_mul (by omega)]
          calc n < 10 ^ (f2 + 1) := hb2
          _ = 10 ^ f2 * 10 := by ring
        simp only [natDigitsAux, hn, if_false]
        rw [ih f2 (n / 10) hf1 hf2 hd1 hd2]

theorem natDigits_eq_aux (fuel n : Nat) (h1 : 0 < fuel) (h2 : n < 10 ^ fuel) :
    natDigitsAux fuel n = natDigits n := by
  refine natDigitsAux_congr fuel (n + 1) n h1 (by omega) h2 ?_
  calc n < 10 ^ n := Nat.lt_pow_self (by omega) n
  _ ≤ 10 ^ (n + 1) := Nat.pow_le_pow_right (by omega) (by omega)

theorem natDigits_four {n : Nat} (h1 : 1000 ≤ n) (h2 : n < 10000) :
    natDigits n = [n / 1000, n / 100 % 10, n / 10 % 10, n % 10] := by
  rw [← natDigits_eq_aux 4 n (by omega) (by norm_num; omega)]
  have e1 : n / 10 / 10 = n / 100 := by omega
  have e2 : n / 100 / 10 = n / 1000 := by omega
  have d0 : ¬ n < 10 := by omega
  have d1 : ¬ n / 10 < 10 := by omega
  have d2 : ¬ n / 100 < 10 := by omega
  have d3 : n / 1000 < 10 := by omega
  have m1 : n / 1000 % 10 = n / 1000 := by omega
  simp only [natDigitsAux, d0, if_false, d1, d2, e1, e2, d3, if_true, m1]
  simp

/-- C6 (counterexample): the claim renders 9999 positionally, but the
source's year test is `1000 <= n_int < 10000 and len(n_str) == 4`
(`text_processor.py` line 22), which includes 9999: `convert_number` reads
9999 digit by digit as `九九九九`, not as the positional
`九千九百九十九` the claim requires. -/
theorem convert_number_9999_cx :
    convert_number 9999 = digitByDigit 9999 ∧
    digitByDigit 9999 = ['九', '九', '九', '九'] ∧
    ¬ (convert_number 9999 = ['九', '千', '九', '百', '九', '十', '九']) := by
  refine ⟨by decide, by decide, by decide⟩

/-- C6 (amended): every 4-digit integer in `[1000, 10000)` — including
9999 — is rendered digit-by-digit (year convention), and the zero-filler
word is inserted positionally below 1000: for a nonzero hundreds digit `h`
and a nonzero ones remainder `r < 10`, `100*h + r` renders as
`digit(h) 百 零 digit(r)`.  (The thousands positional branch of the source
is unreachable, since all of `[1000, 10000)` takes the year branch.) -/
theorem convert_number_year_convention :
    (∀ n : Nat, 1000 ≤ n → n < 10000 → convert_number n = digitByDigit n) ∧
    (∀ h r : Nat, 1 ≤ h → h ≤ 9 → 1 ≤ r → r ≤ 9 →
      convert_number (100 * h + r) =
        [chineseDigit h, '百', '零', chineseDigit r]) := by
  constructor
  · intro n h1 h2
    have hlen : (natDigits n).length = 4 := by
      rw [natDigits_four h1 h2]; rfl
    simp [convert_number, convertNumberAux, h1, h2, hlen]
  · intro h r hh1 hh2 hr1 hr2
    have hy : ¬ 1000 ≤ 100 * h + r := by omega
    have hlt : 100 * h + r < 10000 := by omega
    have h0 : ¬ 100 * h + r = 0 := by omega
    have ha : ¬ 100 * h + r < 10 := by omega
    have hb : ¬ 100 * h + r < 20 := by omega
    have hc : ¬ 100 * h + r < 100 := by omega
    have hd : 100 * h + r < 1000 := by omega
    have hdiv : (100 * h + r) / 100 = h := by omega
    have hmod : (100 * h + r) % 100 = r := by omega
    have hrpos : 0 < r := hr1
    have hrlt : r < 10 := by omega
    simp [convert_number, convertNumberAux, hy, hlt, h0, ha, hb, hc, hd,
      hdiv, hmod, hrpos, hrlt]

/-- C6 witness: the year 2026 is read digit-by-digit and 305 gets the
zero-filler. -/
theorem convert_number_year_convention_witness :
    convert_number 2026 = digitByDigit 2026 ∧
    convert_number (100 * 3 + 5) = [chineseDigit 3, '百', '零', chineseDigit 5] :=
  ⟨convert_number_year_convention.1 2026 (by omega) (by omega),
   convert_number_year_convention.2 3 5 (by omega) (by omega) (by omega) (by omega)⟩

theorem getLast?_mem {α : Type} : ∀ (l : List α) (a : α), l.getLast? = some a → a ∈ l := by
  intro l
  induction l with
  | nil => intro a h; cases h
  | cons c rest ih =>
    intro a h
    cases rest with
    | nil =>
      simp [List.getLast?] at h
      simp [h]
    | cons d t =>
      rw [List.getLast?_cons_cons] at h
      exact List.mem_cons_of_mem c (ih a h)

theorem rfindWithin_le {m l : List Char} {endPos pos : Nat}
    (h : rfindWithin m l endPos = some pos) : pos + m.length ≤ endPos := by
  have hm := getLast?_mem _ _ h
  rw [List.mem_filter] at hm
  have := List.mem_range.1 hm.1
  omega

theorem findCutPosGo_spec : ∀ (ms : List (List Char)) (line : List Char) (maxLen : Nat),
    findCutPosGo line maxLen ms ≤ maxLen ∧
    (findCutPosGo line maxLen ms = maxLen ∨
      ∃ m ∈ ms, ∃ pos, rfindWithin m line maxLen = some pos ∧
        10 * pos > 7 * maxLen ∧ findCutPosGo line maxLen ms = pos + m.length) := by
  intro ms
  induction ms with
  | nil => intro line maxLen; exact ⟨le_refl _, Or.inl rfl⟩
  | cons m rest ih =>
    intro line maxLen
    cases hr : rfindWithin m line maxLen with
    | none =>
      obtain ⟨h1, h2⟩ := ih line maxLen
      refine ⟨by simpa [findCutPosGo, hr] using h1, ?_⟩
      rcases h2 with h2 | ⟨m', hm', rest'⟩
      · exact Or.inl (by simpa [findCutPosGo, hr] using h2)
      · exact Or.inr ⟨m', by simp [hm'], by simpa [findCutPosGo, hr] using rest'⟩
    | some pos =>
      by_cases hth : 10 * pos > 7 * maxLen
      · refine ⟨?_, Or.inr ⟨m, by simp, pos, hr, hth, by simp [findCutPosGo, hr, hth]⟩⟩
        have := rfindWithin_le hr
        simp only [findCutPosGo, hr, hth, if_true]
        omega
      · obtain ⟨h1, h2⟩ := ih line maxLen
        refine ⟨by simpa [findCutPosGo, hr, hth] using h1, ?_⟩
        rcases h2 with h2 | ⟨m', hm', rest'⟩
        · exact Or.inl (by simpa [findCutPosGo, hr, hth] using h2)
        · exact Or.inr ⟨m', by simp [hm'], by simpa [findCutPosGo, hr, hth] using rest'⟩

/-- C5 (counterexample): the claimed cut rule uses "half the limit" and only
sentence punctuation and comma; the source (`text_processor.py` lines
186-191) requires the marker strictly past 70% of the limit and tries the
extended list `['。', '，', '[uv_break]', '。', '、']`.  On the line
`aaaaaa。bbbbbb` with limit 10, the claimed rule cuts after the `。` at
index 6 (6 ≥ 10/2), giving a first piece of 7 characters, but the code
rejects it (6 is not past 70% of 10) and hard-cuts at the limit: the first
emitted piece is the 10-character `aaaaaa。bbb`. -/
theorem split_cut_rule_cx :
    specCutPos "aaaaaa。bbbbbb".toList 10 = 7 ∧
    findCutPos "aaaaaa。bbbbbb".toList 10 = 10 ∧
    split_long_text "aaaaaa。bbbbbb\nx".toList 10 =
      ["aaaaaa。bbb".toList, "bbb\nx".toList] ∧
    (7 : Nat) ≠ 10 :=
  ⟨by decide, by decide, by decide, by decide⟩

/-- C5 (amended): the cut point is always at or before the limit; it equals
the limit (hard cut) unless some marker of `['。', '，', '[uv_break]',
'。', '、']` — tried in this priority order — has its rightmost occurrence
inside the window strictly past 70% of the limit, in which case the cut
falls immediately after that occurrence.  The procedure then recurses on
the remainder (depth-capped, claim C10). -/
theorem findCutPos_spec (line : List Char) (maxLen : Nat) :
    findCutPos line maxLen ≤ maxLen ∧
    (findCutPos line maxLen = maxLen ∨
      ∃ m ∈ cutMarkers, ∃ pos, rfindWithin m line maxLen = some pos ∧
        10 * pos > 7 * maxLen ∧ findCutPos line maxLen = pos + m.length) :=
  findCutPosGo_spec cutMarkers line maxLen

/-- C10: the depth cap of `split_long_text`.  Termination holds because the
model is structurally recursive on exactly the source's depth budget; at
the cap (`depth > 10`, fuel 0) a text still longer than `max_len` is
truncated to its first `max_len` characters, and consequently the packed
output can silently lose trailing characters: the single paragraph
`aa\nbb\ncc` packed with `max_chars = 7` comes back as `aa\nbb\nc`,
dropping the final `c`. -/
theorem split_long_text_depth_cap :
    (∀ (text : List Char) (maxLen : Nat), maxLen < text.length →
      splitLongText 0 text maxLen = [text.take maxLen]) ∧
    merge_paragraphs ["aa\nbb\ncc".toList] 1 7 = ["aa\nbb\nc".toList] ∧
    ("aa\nbb\nc".toList).length < ("aa\nbb\ncc".toList).length := by
  refine ⟨?_, by decide, by decide⟩
  intro text maxLen h
  simp [splitLongText, h]

/-- C10 witness: the truncating base case evaluated at a concrete input. -/
theorem split_long_text_depth_cap_witness :
    2 < ("abc".toList).length ∧ splitLongText 0 "abc".toList 2 = ["ab".toList] :=
  ⟨by decide, split_long_text_depth_cap.1 "abc".toList 2 (by decide)⟩

/-- C3: the build loop's cache check does not consult the SegmentKey.  The
skip decision (`cli.py` line 282) is `audio_path.exists() and not force`
where the artifact name is the ordinal `segment_{i:03d}.wav` (line 279),
so the decision is entirely independent of the unit's text and voice seed;
in particular, after editing a unit's text, a rebuild still skips the unit
because the ordinal-named artifact from the previous run exists. -/
theorem build_cache_ignores_segment_key :
    (∀ (files : List (List Char)) (i : Nat) (force : Bool)
        (text text' : List Char) (seed seed' : Nat),
      unitSkipped files i text seed force = unitSkipped files i text' seed' force) ∧
    unitSkipped ["segment_001.wav".toList] 1 "edited text".toList 2222 false = true :=
  ⟨fun _ _ _ _ _ _ _ => rfl, by decide⟩

/-! ### Strip, split and join toolbox -/

theorem dropTrailingWS_sublist : ∀ l : List Char, (dropTrailingWS l).Sublist l := by
  intro l
  induction l with
  | nil => simp [dropTrailingWS]
  | cons c rest ih =>
    rw [dropTrailingWS]
    cases hd : dropTrailingWS rest with
    | nil =>
      by_cases hw : c.isWhitespace <;> simp [hw, List.nil_sublist]
    | cons d t =>
      exact (hd ▸ ih).cons₂ c

theorem pyStrip_sublist (l : List Char) : (pyStrip l).Sublist l :=
  (dropTrailingWS_sublist _).trans (List.dropWhile_sublist _)

theorem pyStrip_length_le (l : List Char) : (pyStrip l).length ≤ l.length :=
  (pyStrip_sublist l).length_le

theorem dropTrailingWS_last : ∀ (l : List Char) (a : Char),
    (dropTrailingWS l).getLast? = some a → a.isWhitespace = false := by
  intro l
  induction l with
  | nil => intro a h; simp [dropTrailingWS] at h
  | cons c rest ih =>
    intro a h
    rw [dropTrailingWS] at h
    cases hd : dropTrailingWS rest with
    | nil =>
      rw [hd] at h
      by_cases hw : c.isWhitespace
      · simp [hw] at h
      · simp only [Bool.not_eq_true] at hw
        simp [hw, List.getLast?] at h
        rw [← h]; exact hw
    | cons d t =>
      rw [hd, List.getLast?_cons_cons] at h
      exact ih a (hd ▸ h)

theorem dropTrailingWS_head (c : Char) (rest : List Char)
    (h : dropTrailingWS (c :: rest) ≠ []) :
    ∃ t, dropTrailingWS (c :: rest) = c :: t := by
  rw [dropTrailingWS] at h ⊢
  cases hd : dropTrailingWS rest with
  | nil =>
    rw [hd] at h
    by_cases hw : c.isWhitespace
    · simp [hw] at h
    · exact ⟨[], by simp [hw]⟩
  | cons d t => exact ⟨d :: t, rfl⟩

theorem dropWhile_head_false : ∀ (l : List Char) (c : Char) (t : List Char),
    l.dropWhile Char.isWhitespace = c :: t → c.isWhitespace = false := by
  intro l
  induction l with
  | nil => intro c t h; simp at h
  | cons x xs ih =>
    intro c t h
    rw [List.dropWhile_cons] at h
    by_cases hw : x.isWhitespace
    · exact ih c t (by simpa [hw] using h)
    · simp only [Bool.not_eq_true] at hw
      simp [hw] at h
      rw [← h.1]; exact hw

theorem pyStrip_head_ws {l : List Char} {a : Char}
    (h : (pyStrip l).head? = some a) : a.isWhitespace = false := by
  rw [pyStrip] at h
  cases hdw : l.dropWhile Char.isWhitespace with
  | nil => rw [hdw] at h; simp [dropTrailingWS] at h
  | cons c t =>
    rw [hdw] at h
    by_cases hne : dropTrailingWS (c :: t) = []
    · rw [hne] at h; simp at h
    · obtain ⟨t', ht'⟩ := dropTrailingWS_head c t hne
      rw [ht'] at h
      simp at h
      rw [← h]
      exact dropWhile_head_false l c t hdw

theorem pyStrip_last_ws {l : List Char} {a : Char}
    (h : (pyStrip l).getLast? = some a) : a.isWhitespace = false :=
  dropTrailingWS_last _ a h

theorem dropTrailingWS_eq_self : ∀ l : List Char,
    (∀ a, l.getLast? = some a → a.isWhitespace = false) → dropTrailingWS l = l := by
  intro l
  induction l with
  | nil => intro _; rfl
  | cons c rest ih =>
    intro h
    rw [dropTrailingWS]
    cases rest with
    | nil =>
      have hc := h c (by simp)
      simp [dropTrailingWS, hc]
    | cons d t =>
      have hrest : dropTrailingWS (d :: t) = d :: t :=
        ih (fun a ha => h a (by rw [List.getLast?_cons_cons]; exact ha))
      rw [hrest]

theorem dropWhile_ws_eq_self {l : List Char}
    (h : ∀ a, l.head? = some a → Char.isWhitespace a = false) :
    l.dropWhile Char.isWhitespace = l := by
  cases l with
  | nil => rfl
  | cons c rest =>
    have := h c (by simp)
    rw [List.dropWhile_cons]
    simp [this]

theorem pyStrip_eq_self {l : List Char}
    (h1 : ∀ a, l.head? = some a → a.isWhitespace = false)
    (h2 : ∀ a, l.getLast? = some a → a.isWhitespace = false) : pyStrip l = l := by
  rw [pyStrip, dropWhile_ws_eq_self h1, dropTrailingWS_eq_self l h2]

theorem pyStrip_idem (l : List Char) : pyStrip (pyStrip l) = pyStrip l :=
  pyStrip_eq_self (fun _ h => pyStrip_head_ws h) (fun _ h => pyStrip_last_ws h)

theorem splitOnChar_ne_nil (sep : Char) (l : List Char) : splitOnChar sep l ≠ [] := by
  cases l with
  | nil => simp [splitOnChar]
  | cons c rest =>
    rw [splitOnChar]
    by_cases hc : c = sep
    · simp [hc]
    · simp only [hc, if_false]
      cases splitOnChar sep rest <;> simp

theorem splitOnChar_no_sep (sep : Char) : ∀ (l : List Char), ∀ s ∈ splitOnChar sep l, sep ∉ s := by
  intro l
  induction l with
  | nil => intro s hs; simp [splitOnChar] at hs; simp [hs]
  | cons c rest ih =>
    intro s hs
    rw [splitOnChar] at hs
    by_cases hc : c = sep
    · simp only [hc, if_true] at hs
      rcases List.mem_cons.1 hs with rfl | hs
      · simp
      · exact ih s hs
    · simp only [hc, if_false] at hs
      cases hsp : splitOnChar sep rest with
      | nil => exact absurd hsp (splitOnChar_ne_nil sep rest)
      | cons h t =>
        rw [hsp] at hs
        rcases List.mem_cons.1 hs with rfl | hs
        · have hh : sep ∉ h := ih h (by rw [hsp]; exact List.mem_cons_self h t)
          simp [Ne.symm hc, hh]
        · exact ih s (by rw [hsp]; exact List.mem_cons_of_mem h hs)

theorem splitOnChar_sublist (sep : Char) : ∀ (l : List Char), ∀ s ∈ splitOnChar sep l, s.Sublist l := by
  intro l
  induction l with
  | nil => intro s hs; simp [splitOnChar] at hs; simp [hs]
  | cons c rest ih =>
    intro s hs
    rw [splitOnChar] at hs
    by_cases hc : c = sep
    · simp only [hc, if_true] at hs
      rcases List.mem_cons.1 hs with rfl | hs
      · exact List.nil_sublist _
      · exact (ih s hs).cons c
    · simp only [hc, if_false] at hs
      cases hsp : splitOnChar sep rest with
      | nil => exact absurd hsp (splitOnChar_ne_nil sep rest)
      | cons h t =>
        rw [hsp] at hs
        rcases List.mem_cons.1 hs with rfl | hs
        · exact ((ih h (by rw [hsp]; exact List.mem_cons_self h t))).cons₂ c
        · exact (ih s (by rw [hsp]; exact List.mem_cons_of_mem h hs)).cons c

theorem splitOnChar_append (sep : Char) : ∀ (x y : List Char),
    splitOnChar sep (x ++ sep :: y) = splitOnChar sep x ++ splitOnChar sep y := by
  intro x y
  induction x with
  | nil => simp [splitOnChar]
  | cons c xs ih =>
    simp only [List.cons_append, List.append_eq, splitOnChar]
    by_cases hc : c = sep
    · simp only [hc, if_true, ih]
      rfl
    · simp only [hc, if_false, ih]
      cases hsp : splitOnChar sep xs with
      | nil => exact absurd hsp (splitOnChar_ne_nil sep xs)
      | cons h t => simp

theorem splitOnChar_of_not_mem {sep : Char} : ∀ {l : List Char}, sep ∉ l →
    splitOnChar sep l = [l] := by
  intro l
  induction l with
  | nil => intro _; rfl
  | cons c rest ih =>
    intro h
    have hc : c ≠ sep := fun hcc => h (by simp [hcc])
    have hrest : sep ∉ rest := fun hm => h (by simp [hm])
    rw [splitOnChar]
    simp only [hc, if_false, ih hrest]

theorem splitOnChar_joinWith (sep : Char) : ∀ (cs : List (List Char)), cs ≠ [] →
    (∀ s ∈ cs, sep ∉ s) → splitOnChar sep (joinWith [sep] cs) = cs := by
  intro cs
  induction cs with
  | nil => intro h; exact absurd rfl h
  | cons x t ih =>
    intro _ h
    cases t with
    | nil =>
      rw [joinWith]
      exact splitOnChar_of_not_mem (h x (by simp))
    | cons y t' =>
      have : joinWith [sep] (x :: y :: t') = x ++ sep :: joinWith [sep] (y :: t') := by
        rw [joinWith]; simp
      rw [this, splitOnChar_append,
        splitOnChar_of_not_mem (h x (by simp)),
        ih (by simp) (fun s hs => h s (List.mem_cons_of_mem x hs))]
      rfl

theorem joinWith_splitOnChar (sep : Char) : ∀ (l : List Char),
    joinWith [sep] (splitOnChar sep l) = l := by
  intro l
  induction l with
  | nil => rfl
  | cons c rest ih =>
    rw [splitOnChar]
    by_cases hc : c = sep
    · simp only [hc, if_true]
      cases hsp : splitOnChar sep rest with
      | nil => exact absurd hsp (splitOnChar_ne_nil sep rest)
      | cons h t =>
        rw [hsp] at ih
        rw [joinWith]
        cases t <;> simp_all [joinWith]
    · simp only [hc, if_false]
      cases hsp : splitOnChar sep rest with
      | nil => exact absurd hsp (splitOnChar_ne_nil sep rest)
      | cons h t =>
        rw [hsp] at ih
        cases t with
        | nil =>
          simp only [joinWith] at ih ⊢
          rw [ih]
        | cons d t' =>
          simp only [joinWith] at ih ⊢
          simp only [List.cons_append, List.append_assoc] at ih ⊢
          rw [ih]

/-! ### Line lists -/

theorem contains_iff {l : List Char} {c : Char} : l.contains c = true ↔ c ∈ l :=
  List.elem_iff

theorem pyLines_mem {s t : List Char} (h : s ∈ pyLines t) :
    ∃ frag ∈ splitOnChar '\n' t, s = pyStrip frag ∧ s.isEmpty = false := by
  rw [pyLines, List.mem_filter] at h
  obtain ⟨hm, hne⟩ := h
  obtain ⟨frag, hf, hs⟩ := List.mem_map.1 hm
  exact ⟨frag, hf, hs.symm, by simpa using hne⟩

theorem pyLines_props (t : List Char) :
    ∀ s ∈ pyLines t, s ≠ [] ∧ '\n' ∉ s ∧ pyStrip s = s := by
  intro s hs
  obtain ⟨frag, hf, rfl, hne⟩ := pyLines_mem hs
  refine ⟨by simpa using hne, ?_, pyStrip_idem frag⟩
  intro hmem
  exact splitOnChar_no_sep '\n' t frag hf ((pyStrip_sublist frag).subset hmem)

theorem pyLines_length_le (t : List Char) : ∀ s ∈ pyLines t, s.length ≤ t.length := by
  intro s hs
  obtain ⟨frag, hf, rfl, _⟩ := pyLines_mem hs
  exact le_trans (pyStrip_length_le frag) (splitOnChar_sublist '\n' t frag hf).length_le

theorem sentenceLines_props {t : List Char} (h : '\n' ∉ t) :
    ∀ s ∈ sentenceLines t, s ≠ [] ∧ '\n' ∉ s ∧ pyStrip s = s := by
  intro s hs
  rw [sentenceLines] at hs
  obtain ⟨frag, hf, rfl⟩ := List.mem_map.1 hs
  rw [List.mem_filter] at hf
  obtain ⟨hfm, hfne⟩ := hf
  have hstrip_ne : pyStrip frag ≠ [] := by simpa using hfne
  refine ⟨by simp, ?_, ?_⟩
  · intro hmem
    rcases List.mem_append.1 hmem with hmem | hmem
    · exact h ((splitOnChar_sublist '。' t frag hfm).subset
        ((pyStrip_sublist frag).subset hmem))
    · simp at hmem
  · refine pyStrip_eq_self ?_ ?_
    · intro a ha
      cases hps : pyStrip frag with
      | nil => exact absurd hps hstrip_ne
      | cons x xs =>
        rw [hps] at ha
        simp at ha
        rw [← ha]
        exact @pyStrip_head_ws frag x (by rw [hps]; rfl)
    · intro a ha
      rw [List.getLast?_concat] at ha
      have : a = '。' := by simpa using ha.symm
      subst this
      decide

theorem pyLines_joinLines {cs : List (List Char)}
    (h : ∀ s ∈ cs, s ≠ [] ∧ '\n' ∉ s ∧ pyStrip s = s) :
    pyLines (joinLines cs) = cs := by
  cases cs with
  | nil => rfl
  | cons x t =>
    rw [joinLines, pyLines,
      splitOnChar_joinWith '\n' (x :: t) (by simp) (fun s hs => (h s hs).2.1)]
    have hmap : (x :: t).map pyStrip = x :: t :=
      List.map_congr_left (fun s hs => (h s hs).2.2) |>.trans (List.map_id _)
    rw [hmap]
    refine List.filter_eq_self.2 ?_
    intro s hs
    simpa using (h s hs).1

theorem joinLines_mem_nl {cs : List (List Char)} (h : 2 ≤ cs.length) :
    '\n' ∈ joinLines cs := by
  cases cs with
  | nil => simp at h
  | cons x t =>
    cases t with
    | nil => simp at h
    | cons y t' =>
      rw [joinLines, joinWith]
      simp

theorem joinLines_single (x : List Char) : joinLines [x] = x := rfl

theorem pyLines_append_sep (a b : List Char) :
    pyLines (a ++ '\n' :: '\n' :: b) = pyLines a ++ pyLines b := by
  have : a ++ '\n' :: '\n' :: b = a ++ '\n' :: ('\n' :: b) := rfl
  rw [pyLines, this, splitOnChar_append]
  have : splitOnChar '\n' ('\n' :: b) = [] :: splitOnChar '\n' b := by
    rw [splitOnChar]; simp
  rw [this, List.map_append, List.filter_append]
  rfl

/-- A piece of packed output is either within the limit or consists of
newline-joined lines that all are (and can then be split within the limit).
This is the invariant carried through `merge_paragraphs`. -/
theorem joinLines_flush {current : List (List Char)} {maxLen : Nat}
    (h : ∀ s ∈ current, s.length ≤ maxLen ∧ s ≠ [] ∧ '\n' ∉ s ∧ pyStrip s = s)
    (hne : current ≠ []) :
    (joinLines current).length ≤ maxLen ∨
      ('\n' ∈ joinLines current ∧ ∀ s ∈ pyLines (joinLines current), s.length ≤ maxLen) := by
  cases current with
  | nil => exact absurd rfl hne
  | cons x t =>
    cases t with
    | nil => exact Or.inl (by rw [joinLines_single]; exact (h x (by simp)).1)
    | cons y t' =>
      refine Or.inr ⟨joinLines_mem_nl (by simp), ?_⟩
      rw [pyLines_joinLines (fun s hs => (h s hs).2)]
      exact fun s hs => (h s hs).1

/-! ### Packer invariants -/

theorem findCutPos_le_max (line : List Char) (maxLen : Nat) :
    findCutPos line maxLen ≤ maxLen :=
  (findCutPosGo_spec cutMarkers line maxLen).1

theorem firstPart_le {line : List Char} {maxLen : Nat} :
    (pyStrip (line.take (findCutPos line maxLen))).length ≤ maxLen := by
  have h1 := pyStrip_length_le (line.take (findCutPos line maxLen))
  have h2 : (line.take (findCutPos line maxLen)).length ≤ findCutPos line maxLen := by
    simp [List.length_take]
  have h3 := findCutPos_le_max line maxLen
  omega

theorem splitLoop_pieces (maxLen : Nat) (recur : List Char → List (List Char))
    (hrec : ∀ t, ∀ u ∈ recur t,
      u.length ≤ maxLen ∨ ('\n' ∈ u ∧ ∀ s ∈ pyLines u, s.length ≤ maxLen)) :
    ∀ (lines result current : List (List Char)) (curLen : Nat),
      (∀ s ∈ lines, s ≠ [] ∧ '\n' ∉ s ∧ pyStrip s = s) →
      (∀ u ∈ result, u.length ≤ maxLen ∨ ('\n' ∈ u ∧ ∀ s ∈ pyLines u, s.length ≤ maxLen)) →
      (∀ s ∈ current, s.length ≤ maxLen ∧ s ≠ [] ∧ '\n' ∉ s ∧ pyStrip s = s) →
      ∀ u ∈ splitLoop recur maxLen lines result current curLen,
        u.length ≤ maxLen ∨ ('\n' ∈ u ∧ ∀ s ∈ pyLines u, s.length ≤ maxLen) := by
  intro lines
  induction lines with
  | nil =>
    intro result current curLen _ hres hcur u hu
    rw [splitLoop] at hu
    by_cases hce : current.isEmpty
    · rw [if_pos hce] at hu
      exact hres u hu
    · rw [if_neg hce] at hu
      have hcur_ne : current ≠ [] := fun h => by simp [h] at hce
      simp only [] at hu
      by_cases hseg : (joinLines current).length > maxLen
      · rw [if_pos hseg] at hu
        rcases List.mem_append.1 hu with hu | hu
        · exact hres u hu
        · exact hrec _ u hu
      · rw [if_neg hseg] at hu
        rcases List.mem_append.1 hu with hu | hu
        · exact hres u hu
        · have : u = joinLines current := by simpa using hu
          subst this
          exact Or.inl (by omega)
  | cons line rest ih =>
    intro result current curLen hlines hres hcur u hu
    have hline := hlines line (by simp)
    have hrest : ∀ s ∈ rest, s ≠ [] ∧ '\n' ∉ s ∧ pyStrip s = s :=
      fun s hs => hlines s (List.mem_cons_of_mem _ hs)
    rw [splitLoop] at hu
    by_cases hlong : line.length > maxLen
    · rw [if_pos hlong] at hu
      simp only [] at hu
      have hres1 : ∀ v ∈ (if current.isEmpty then result
          else result ++ [joinLines current]),
          v.length ≤ maxLen ∨ ('\n' ∈ v ∧ ∀ s ∈ pyLines v, s.length ≤ maxLen) := by
        by_cases hce : current.isEmpty
        · rw [if_pos hce]; exact hres
        · rw [if_neg hce]
          intro v hv
          rcases List.mem_append.1 hv with hv | hv
          · exact hres v hv
          · have : v = joinLines current := by simpa using hv
            subst this
            exact joinLines_flush hcur (fun h => by simp [h] at hce)
      have hres2 : ∀ v ∈ (if (pyStrip (line.take (findCutPos line maxLen))).isEmpty
          then (if current.isEmpty then result else result ++ [joinLines current])
          else (if current.isEmpty then result else result ++ [joinLines current]) ++
            [pyStrip (line.take (findCutPos line maxLen))]),
          v.length ≤ maxLen ∨ ('\n' ∈ v ∧ ∀ s ∈ pyLines v, s.length ≤ maxLen) := by
        by_cases hfe : (pyStrip (line.take (findCutPos line maxLen))).isEmpty
        · rw [if_pos hfe]; exact hres1
        · rw [if_neg hfe]
          intro v hv
          rcases List.mem_append.1 hv with hv | hv
          · exact hres1 v hv
          · have : v = pyStrip (line.take (findCutPos line maxLen)) := by simpa using hv
            subst this
            exact Or.inl firstPart_le
      have hremprops : ∀ hne : (pyStrip (line.drop (findCutPos line maxLen))).isEmpty = false,
          ¬ (pyStrip (line.drop (findCutPos line maxLen))).length > maxLen →
          ∀ s ∈ [pyStrip (line.drop (findCutPos line maxLen))],
            s.length ≤ maxLen ∧ s ≠ [] ∧ '\n' ∉ s ∧ pyStrip s = s := by
        intro hne hlen s hs
        have : s = pyStrip (line.drop (findCutPos line maxLen)) := by simpa using hs
        subst this
        refine ⟨by omega, by simpa using hne, ?_, pyStrip_idem _⟩
        intro hm
        exact hline.2.1 ((List.drop_sublist _ line).subset ((pyStrip_sublist _).subset hm))
      by_cases hre : (pyStrip (line.drop (findCutPos line maxLen))).isEmpty
      · rw [if_pos hre] at hu
        exact ih _ _ _ hrest hres2 (by intro s hs; simp at hs) u hu
      · rw [if_neg hre] at hu
        by_cases hrl : (pyStrip (line.drop (findCutPos line maxLen))).length > maxLen
        · rw [if_pos hrl] at hu
          refine ih _ _ _ hrest ?_ (by intro s hs; simp at hs) u hu
          intro v hv
          rcases List.mem_append.1 hv with hv | hv
          · exact hres2 v hv
          · exact hrec _ v hv
        · rw [if_neg hrl] at hu
          exact ih _ _ _ hrest hres2
            (hremprops (by simpa using hre) hrl) u hu
    · rw [if_neg hlong] at hu
      by_cases hmid : curLen + line.length ≥ maxLen ∧ current.isEmpty = false
      · rw [if_pos hmid] at hu
        simp only [] at hu
        by_cases hfit : (joinLines current).length ≤ maxLen ∧
            (joinLines current).length + line.length + 1 ≤ maxLen
        · rw [if_pos hfit] at hu
          refine ih _ _ _ hrest hres ?_ u hu
          intro s hs
          rcases List.mem_append.1 hs with hs | hs
          · exact hcur s hs
          · have : s = line := by simpa using hs
            subst this
            exact ⟨by omega, hline⟩
        · rw [if_neg hfit] at hu
          have hline_props : ∀ s ∈ [line],
              s.length ≤ maxLen ∧ s ≠ [] ∧ '\n' ∉ s ∧ pyStrip s = s := by
            intro s hs
            have : s = line := by simpa using hs
            subst this
            exact ⟨by omega, hline⟩
          by_cases hsegle : (joinLines current).length ≤ maxLen
          · rw [if_pos hsegle] at hu
            refine ih _ _ _ hrest ?_ hline_props u hu
            intro v hv
            rcases List.mem_append.1 hv with hv | hv
            · exact hres v hv
            · have : v = joinLines current := by simpa using hv
              subst this
              exact Or.inl hsegle
          · rw [if_neg hsegle] at hu
            refine ih _ _ _ hrest ?_ hline_props u hu
            intro v hv
            rcases List.mem_append.1 hv with hv | hv
            · exact hres v hv
            · exact hrec _ v hv
      · rw [if_neg hmid] at hu
        refine ih _ _ _ hrest hres ?_ u hu
        intro s hs
        rcases List.mem_append.1 hs with hs | hs
        · exact hcur s hs
        · have : s = line := by simpa using hs
          subst this
          exact ⟨by omega, hline⟩

theorem splitLongText_pieces : ∀ (fuel : Nat) (text : List Char) (maxLen : Nat),
    ∀ u ∈ splitLongText fuel text maxLen,
      u.length ≤ maxLen ∨ ('\n' ∈ u ∧ ∀ s ∈ pyLines u, s.length ≤ maxLen) := by
  intro fuel
  induction fuel with
  | zero =>
    intro text maxLen u hu
    rw [splitLongText] at hu
    by_cases h : text.length > maxLen
    · rw [if_pos h] at hu
      have : u = text.take maxLen := by simpa using hu
      subst this
      exact Or.inl (by simp [List.length_take])
    · rw [if_neg h] at hu
      have : u = text := by simpa using hu
      subst this
      exact Or.inl (by omega)
  | succ fuel ih =>
    intro text maxLen u hu
    rw [splitLongText] at hu
    by_cases h : text.length ≤ maxLen
    · rw [if_pos h] at hu
      have : u = text := by simpa using hu
      subst this
      exact Or.inl h
    · rw [if_neg h] at hu
      simp only [] at hu
      by_cases hnl : text.contains '\n'
      · rw [if_pos hnl] at hu
        exact splitLoop_pieces maxLen _ (fun t => ih t maxLen) _ _ _ _
          (pyLines_props text) (by intro v hv; simp at hv) (by intro s hs; simp at hs) u hu
      · rw [if_neg hnl] at hu
        have hnm : '\n' ∉ text := fun hm => hnl (contains_iff.2 hm)
        exact splitLoop_pieces maxLen _ (fun t => ih t maxLen) _ _ _ _
          (sentenceLines_props hnm) (by intro v hv; simp at hv)
          (by intro s hs; simp at hs) u hu

theorem joinLines_recur_spec {current : List (List Char)} {maxLen : Nat}
    (h : ∀ s ∈ current, s.length ≤ maxLen ∧ s ≠ [] ∧ '\n' ∉ s ∧ pyStrip s = s)
    (hne : current ≠ []) (hlong : (joinLines current).length > maxLen) :
    '\n' ∈ joinLines current ∧ ∀ s ∈ pyLines (joinLines current), s.length ≤ maxLen := by
  rcases joinLines_flush h hne with hle | hr
  · omega
  · exact hr

theorem splitLoop_bounded (maxLen : Nat) (recur : List Char → List (List Char))
    (hrec : ∀ t, '\n' ∈ t → (∀ s ∈ pyLines t, s.length ≤ maxLen) →
      ∀ u ∈ recur t, u.length ≤ maxLen) :
    ∀ (lines result current : List (List Char)) (curLen : Nat),
      (∀ s ∈ lines, s.length ≤ maxLen ∧ s ≠ [] ∧ '\n' ∉ s ∧ pyStrip s = s) →
      (∀ u ∈ result, u.length ≤ maxLen) →
      (∀ s ∈ current, s.length ≤ maxLen ∧ s ≠ [] ∧ '\n' ∉ s ∧ pyStrip s = s) →
      ∀ u ∈ splitLoop recur maxLen lines result current curLen, u.length ≤ maxLen := by
  intro lines
  induction lines with
  | nil =>
    intro result current curLen _ hres hcur u hu
    rw [splitLoop] at hu
    by_cases hce : current.isEmpty
    · rw [if_pos hce] at hu
      exact hres u hu
    · rw [if_neg hce] at hu
      have hcur_ne : current ≠ [] := fun hh => by simp [hh] at hce
      simp only [] at hu
      by_cases hseg : (joinLines current).length > maxLen
      · rw [if_pos hseg] at hu
        rcases List.mem_append.1 hu with hu | hu
        · exact hres u hu
        · obtain ⟨h1, h2⟩ := joinLines_recur_spec hcur hcur_ne hseg
          exact hrec _ h1 h2 u hu
      · rw [if_neg hseg] at hu
        rcases List.mem_append.1 hu with hu | hu
        · exact hres u hu
        · have : u = joinLines current := by simpa using hu
          subst this
          omega
  | cons line rest ih =>
    intro result current curLen hlines hres hcur u hu
    have hline := hlines line (by simp)
    have hrest : ∀ s ∈ rest, s.length ≤ maxLen ∧ s ≠ [] ∧ '\n' ∉ s ∧ pyStrip s = s :=
      fun s hs => hlines s (List.mem_cons_of_mem _ hs)
    rw [splitLoop] at hu
    have hlong : ¬ line.length > maxLen := by
      have := hline.1; omega
    rw [if_neg hlong] at hu
    by_cases hmid : curLen + line.length ≥ maxLen ∧ current.isEmpty = false
    · rw [if_pos hmid] at hu
      simp only [] at hu
      have hcur_ne : current ≠ [] := fun hh => by simp [hh] at hmid
      have hline_props : ∀ s ∈ [line],
          s.length ≤ maxLen ∧ s ≠ [] ∧ '\n' ∉ s ∧ pyStrip s = s := by
        intro s hs
        have : s = line := by simpa using hs
        subst this
        exact hline
      by_cases hfit : (joinLines current).length ≤ maxLen ∧
          (joinLines current).length + line.length + 1 ≤ maxLen
      · rw [if_pos hfit] at hu
        refine ih _ _ _ hrest hres ?_ u hu
        intro s hs
        rcases List.mem_append.1 hs with hs | hs
        · exact hcur s hs
        · have : s = line := by simpa using hs
          subst this
          exact hline
      · rw [if_neg hfit] at hu
        by_cases hsegle : (joinLines current).length ≤ maxLen
        · rw [if_pos hsegle] at hu
          refine ih _ _ _ hrest ?_ hline_props u hu
          intro v hv
          rcases List.mem_append.1 hv with hv | hv
          · exact hres v hv
          · have : v = joinLines current := by simpa using hv
            subst this
            exact hsegle
        · rw [if_neg hsegle] at hu
          refine ih _ _ _ hrest ?_ hline_props u hu
          intro v hv
          rcases List.mem_append.1 hv with hv | hv
          · exact hres v hv
          · obtain ⟨h1, h2⟩ := joinLines_recur_spec hcur hcur_ne (by omega)
            exact hrec _ h1 h2 v hv
    · rw [if_neg hmid] at hu
      refine ih _ _ _ hrest hres ?_ u hu
      intro s hs
      rcases List.mem_append.1 hs with hs | hs
      · exact hcur s hs
      · have : s = line := by simpa using hs
        subst this
        exact hline

theorem splitLongText_bounded : ∀ (fuel : Nat) (text : List Char) (maxLen : Nat),
    '\n' ∈ text → (∀ s ∈ pyLines text, s.length ≤ maxLen) →
    ∀ u ∈ splitLongText fuel text maxLen, u.length ≤ maxLen := by
  intro fuel
  induction fuel with
  | zero =>
    intro text maxLen _ _ u hu
    rw [splitLongText] at hu
    by_cases h : text.length > maxLen
    · rw [if_pos h] at hu
      have : u = text.take maxLen := by simpa using hu
      subst this
      simp [List.length_take]
    · rw [if_neg h] at hu
      have : u = text := by simpa using hu
      subst this
      omega
  | succ fuel ih =>
    intro text maxLen hnl hlb u hu
    rw [splitLongText] at hu
    by_cases h : text.length ≤ maxLen
    · rw [if_pos h] at hu
      have : u = text := by simpa using hu
      subst this
      exact h
    · rw [if_neg h] at hu
      simp only [] at hu
      rw [if_pos (contains_iff.2 hnl)] at hu
      refine splitLoop_bounded maxLen _ (fun t h1 h2 => ih t maxLen h1 h2) _ _ _ _
        ?_ (by intro v hv; simp at hv) (by intro s hs; simp at hs) u hu
      intro s hs
      obtain ⟨h1, h2, h3⟩ := pyLines_props text s hs
      exact ⟨hlb s hs, h1, h2, h3⟩

theorem split_long_text_pieces (text : List Char) (maxChars : Nat) :
    ∀ u ∈ split_long_text text maxChars,
      u.length ≤ maxChars ∨ ('\n' ∈ u ∧ ∀ s ∈ pyLines u, s.length ≤ maxChars) :=
  splitLongText_pieces 11 text maxChars

theorem mergeLoop_pieces (maxChars : Nat) :
    ∀ (paras merged curSeg : List (List Char)) (curLen : Nat),
      (∀ u ∈ merged, u.length ≤ maxChars ∨
        ('\n' ∈ u ∧ ∀ s ∈ pyLines u, s.length ≤ maxChars)) →
      ∀ u ∈ (mergeLoop maxChars paras merged curSeg curLen).1,
        u.length ≤ maxChars ∨ ('\n' ∈ u ∧ ∀ s ∈ pyLines u, s.length ≤ maxChars) := by
  intro paras
  induction paras with
  | nil => intro merged curSeg curLen hm u hu; exact hm u hu
  | cons para rest ih =>
    intro merged curSeg curLen hm u hu
    rw [mergeLoop] at hu
    have hflush : ∀ (m : List (List Char)) (cs : List (List Char)),
        (∀ v ∈ m, v.length ≤ maxChars ∨
          ('\n' ∈ v ∧ ∀ s ∈ pyLines v, s.length ≤ maxChars)) →
        ∀ v ∈ (if (joinParas cs).length > maxChars
            then m ++ split_long_text (joinParas cs) maxChars
            else m ++ [joinParas cs]),
          v.length ≤ maxChars ∨ ('\n' ∈ v ∧ ∀ s ∈ pyLines v, s.length ≤ maxChars) := by
      intro m cs hmm v hv
      by_cases hl : (joinParas cs).length > maxChars
      · rw [if_pos hl] at hv
        rcases List.mem_append.1 hv with hv | hv
        · exact hmm v hv
        · exact split_long_text_pieces _ _ v hv
      · rw [if_neg hl] at hv
        rcases List.mem_append.1 hv with hv | hv
        · exact hmm v hv
        · have : v = joinParas cs := by simpa using hv
          subst this
          exact Or.inl (by omega)
    by_cases hpl : para.length > maxChars
    · rw [if_pos hpl] at hu
      simp only [] at hu
      refine ih _ _ _ ?_ u hu
      intro v hv
      rcases List.mem_append.1 hv with hv | hv
      · by_cases hce : curSeg.isEmpty
        · rw [if_pos hce] at hv
          exact hm v hv
        · rw [if_neg hce] at hv
          exact hflush merged curSeg hm v hv
      · exact split_long_text_pieces _ _ v hv
    · rw [if_neg hpl] at hu
      by_cases hmid : curLen + para.length > maxChars ∧ curSeg.isEmpty = false
      · rw [if_pos hmid] at hu
        simp only [] at hu
        exact ih _ _ _ (hflush merged curSeg hm) u hu
      · rw [if_neg hmid] at hu
        simp only [] at hu
        by_cases htar : 4 * (curLen + para.length) ≥ 3 * maxChars ∨
            10 * (curLen + para.length) ≥ 9 * maxChars
        · rw [if_pos htar] at hu
          by_cases hsl : (joinParas (curSeg ++ [para])).length > maxChars
          · rw [if_pos hsl] at hu
            refine ih _ _ _ ?_ u hu
            intro v hv
            rcases List.mem_append.1 hv with hv | hv
            · exact hm v hv
            · exact split_long_text_pieces _ _ v hv
          · rw [if_neg hsl] at hu
            refine ih _ _ _ ?_ u hu
            intro v hv
            rcases List.mem_append.1 hv with hv | hv
            · exact hm v hv
            · have : v = joinParas (curSeg ++ [para]) := by simpa using hv
              subst this
              exact Or.inl (by omega)
        · rw [if_neg htar] at hu
          exact ih _ _ _ hm u hu

theorem mergeFinishTail_pieces (minChars maxChars : Nat)
    (merged curSeg : List (List Char))
    (hm : ∀ u ∈ merged, u.length ≤ maxChars ∨
      ('\n' ∈ u ∧ ∀ s ∈ pyLines u, s.length ≤ maxChars)) :
    ∀ u ∈ mergeFinishTail minChars maxChars merged curSeg,
      u.length ≤ maxChars ∨ ('\n' ∈ u ∧ ∀ s ∈ pyLines u, s.length ≤ maxChars) := by
  intro u hu
  rw [mergeFinishTail] at hu
  by_cases hce : curSeg.isEmpty
  · rw [if_pos hce] at hu
    exact hm u hu
  · rw [if_neg hce] at hu
    simp only [] at hu
    by_cases hsl : (joinParas curSeg).length > maxChars
    · rw [if_pos hsl] at hu
      rcases List.mem_append.1 hu with hu | hu
      · exact hm u hu
      · exact split_long_text_pieces _ _ u hu
    · rw [if_neg hsl] at hu
      by_cases hmin : (joinParas curSeg).length < minChars ∧ merged.isEmpty = false
      · rw [if_pos hmin] at hu
        by_cases hfit : (merged.getLastD []).length + (joinParas curSeg).length ≤ maxChars
        · rw [if_pos hfit] at hu
          rcases List.mem_append.1 hu with hu | hu
          · exact hm u ((List.dropLast_sublist merged).subset hu)
          · have : u = merged.getLastD [] ++ '\n' :: '\n' :: joinParas curSeg := by
              simpa using hu
            subst this
            refine Or.inr ⟨by simp, ?_⟩
            rw [pyLines_append_sep]
            intro s hs
            rcases List.mem_append.1 hs with hs | hs
            · have := pyLines_length_le _ s hs
              omega
            · have := pyLines_length_le _ s hs
              omega
        · rw [if_neg hfit] at hu
          rcases List.mem_append.1 hu with hu | hu
          · exact hm u hu
          · have : u = joinParas curSeg := by simpa using hu
            subst this
            exact Or.inl (by omega)
      · rw [if_neg hmin] at hu
        rcases List.mem_append.1 hu with hu | hu
        · exact hm u hu
        · have : u = joinParas curSeg := by simpa using hu
          subst this
          exact Or.inl (by omega)

theorem finalCheck_bounded (maxChars : Nat) (merged : List (List Char))
    (h : ∀ u ∈ merged, u.length ≤ maxChars ∨
      ('\n' ∈ u ∧ ∀ s ∈ pyLines u, s.length ≤ maxChars)) :
    ∀ u ∈ finalCheck maxChars merged, u.length ≤ maxChars := by
  intro u hu
  rw [finalCheck] at hu
  obtain ⟨x, hx, hux⟩ := List.mem_flatMap.1 hu
  by_cases hxl : x.length > maxChars
  · rw [if_pos hxl] at hux
    rcases h x hx with hle | ⟨hnl, hlb⟩
    · omega
    · exact splitLongText_bounded 11 x maxChars hnl hlb u hux
  · rw [if_neg hxl] at hux
    have : u = x := by simpa using hux
    subst this
    omega

/-- Every unit of `merge_paragraphs` is within `max_chars`; helper shared
by several claims. -/
theorem merge_paragraphs_bounded (ps : List (List Char)) (minChars maxChars : Nat) :
    ∀ u ∈ merge_paragraphs ps minChars maxChars, u.length ≤ maxChars := by
  intro u hu
  rw [merge_paragraphs] at hu
  by_cases hpe : ps.isEmpty
  · rw [if_pos hpe] at hu
    simp at hu
  · rw [if_neg hpe] at hu
    simp only [] at hu
    exact finalCheck_bounded maxChars _
      (mergeFinishTail_pieces minChars maxChars _ _
        (mergeLoop_pieces maxChars ps [] [] 0 (by intro v hv; simp at hv)))
      u hu

/-! ### Content order: the packer only inserts separators -/

theorem eraseSep_append (a b : List Char) :
    eraseSep (a ++ b) = eraseSep a ++ eraseSep b :=
  List.filter_append a b

theorem eraseSep_sublist_mono {a b : List Char} (h : a.Sublist b) :
    (eraseSep a).Sublist (eraseSep b) :=
  h.filter keepChar

theorem eraseSep_joinWith {sep : List Char} (hsep : eraseSep sep = []) :
    ∀ xs : List (List Char), eraseSep (joinWith sep xs) = eraseSep xs.flatten := by
  intro xs
  induction xs with
  | nil => rfl
  | cons x t ih =>
    cases t with
    | nil => simp [joinWith, List.flatten_cons, eraseSep_append]
    | cons y t' =>
      rw [joinWith, List.flatten_cons, eraseSep_append, eraseSep_append,
        eraseSep_append, hsep, ih]
      simp

theorem eraseSep_joinLines (cs : List (List Char)) :
    eraseSep (joinLines cs) = eraseSep cs.flatten :=
  eraseSep_joinWith (by decide) cs

theorem eraseSep_joinParas (cs : List (List Char)) :
    eraseSep (joinParas cs) = eraseSep cs.flatten :=
  eraseSep_joinWith (by decide) cs

theorem join_sublist_mono {α : Type} {xs ys : List (List α)} (h : xs.Sublist ys) :
    xs.flatten.Sublist ys.flatten := by
  induction h with
  | slnil => exact List.Sublist.refl _
  | cons y _ ih =>
    rw [List.flatten_cons]
    exact ih.trans (List.sublist_append_right y _)
  | cons₂ y _ ih =>
    rw [List.flatten_cons, List.flatten_cons]
    exact ih.append_left y

theorem eraseSep_join_map_sublist {f : List Char → List Char}
    (hf : ∀ x, (eraseSep (f x)).Sublist (eraseSep x)) :
    ∀ xs : List (List Char),
      (eraseSep (xs.map f).flatten).Sublist (eraseSep xs.flatten) := by
  intro xs
  induction xs with
  | nil => exact List.Sublist.refl _
  | cons x t ih =>
    rw [List.map_cons, List.flatten_cons, List.flatten_cons, eraseSep_append, eraseSep_append]
    exact (hf x).append ih

theorem eraseSep_split_join (sep : Char) (hsep : eraseSep [sep] = [])
    (l : List Char) : eraseSep (splitOnChar sep l).flatten = eraseSep l := by
  conv_rhs => rw [← joinWith_splitOnChar sep l]
  rw [eraseSep_joinWith hsep]

theorem eraseSep_pyLines_sublist (t : List Char) :
    (eraseSep (pyLines t).flatten).Sublist (eraseSep t) := by
  rw [pyLines]
  refine ((eraseSep_sublist_mono (join_sublist_mono
    (List.filter_sublist _))).trans ?_)
  refine ((eraseSep_join_map_sublist (fun x => eraseSep_sublist_mono (pyStrip_sublist x)) _).trans ?_)
  rw [eraseSep_split_join '\n' (by decide) t]

theorem eraseSep_sentenceLines_sublist (t : List Char) :
    (eraseSep (sentenceLines t).flatten).Sublist (eraseSep t) := by
  rw [sentenceLines]
  have hf : ∀ x : List Char,
      (eraseSep (pyStrip x ++ ['。'])).Sublist (eraseSep x) := by
    intro x
    rw [eraseSep_append]
    have h2 : eraseSep ['。'] = [] := by decide
    rw [h2, List.append_nil]
    exact eraseSep_sublist_mono (pyStrip_sublist x)
  refine (eraseSep_join_map_sublist hf _).trans ?_
  refine ((eraseSep_sublist_mono (join_sublist_mono (List.filter_sublist _))).trans ?_)
  rw [eraseSep_split_join '。' (by decide) t]

theorem sublist_drop_left {α : Type} {l r₂ : List α} (r₁ : List α)
    (h : l.Sublist r₂) : l.Sublist (r₁ ++ r₂) :=
  h.trans (List.sublist_append_right r₁ r₂)

theorem splitLoop_content (maxLen : Nat) (recur : List Char → List (List Char))
    (hrec : ∀ t, (eraseSep (recur t).flatten).Sublist (eraseSep t)) :
    ∀ (lines result current : List (List Char)) (curLen : Nat),
      (eraseSep (splitLoop recur maxLen lines result current curLen).flatten).Sublist
        (eraseSep result.flatten ++ (eraseSep current.flatten ++ eraseSep lines.flatten)) := by
  intro lines
  induction lines with
  | nil =>
    intro result current curLen
    rw [splitLoop]
    by_cases hce : current.isEmpty
    · rw [if_pos hce]
      exact List.sublist_append_left _ _
    · rw [if_neg hce]
      simp only [List.flatten_nil, List.flatten_cons, List.flatten_append,
        show eraseSep ([] : List Char) = [] from rfl, List.append_nil]
      by_cases hseg : (joinLines current).length > maxLen
      · rw [if_pos hseg]
        simp only [List.flatten_append, eraseSep_append,
          show eraseSep ([] : List Char) = [] from rfl, List.append_nil]
        refine List.Sublist.append_left ?_ _
        have h := (hrec (joinLines current))
        rwa [eraseSep_joinLines] at h
      · rw [if_neg hseg]
        simp only [List.flatten_append, List.flatten_cons, List.flatten_nil,
          eraseSep_append, List.append_nil,
          show eraseSep ([] : List Char) = [] from rfl, eraseSep_joinLines]
        exact List.Sublist.refl _
  | cons line rest ih =>
    intro result current curLen
    rw [splitLoop]
    by_cases hlong : line.length > maxLen
    · rw [if_pos hlong]
      simp only []
      -- the emitted prefix is a sublist of result, current and the cut head of line
      have hpre : (eraseSep (if (pyStrip (line.take (findCutPos line maxLen))).isEmpty
            then (if current.isEmpty then result else result ++ [joinLines current])
            else (if current.isEmpty then result else result ++ [joinLines current]) ++
              [pyStrip (line.take (findCutPos line maxLen))]).flatten).Sublist
          (eraseSep result.flatten ++ (eraseSep current.flatten ++
            eraseSep (line.take (findCutPos line maxLen)))) := by
        have h1 : (eraseSep (if current.isEmpty then result
              else result ++ [joinLines current]).flatten).Sublist
            (eraseSep result.flatten ++ eraseSep current.flatten) := by
          by_cases hce : current.isEmpty
          · rw [if_pos hce]
            exact List.sublist_append_left _ _
          · rw [if_neg hce]
            simp only [List.flatten_append, List.flatten_cons, List.flatten_nil,
              eraseSep_append, List.append_nil, eraseSep_joinLines]
            exact List.Sublist.refl _
        by_cases hfe : (pyStrip (line.take (findCutPos line maxLen))).isEmpty
        · rw [if_pos hfe]
          refine h1.trans ?_
          rw [← List.append_assoc]
          exact List.sublist_append_left _ _
        · rw [if_neg hfe]
          simp only [List.flatten_append, List.flatten_cons, List.flatten_nil,
            eraseSep_append, List.append_nil]
          rw [← List.append_assoc]
          exact List.Sublist.append h1 (eraseSep_sublist_mono (pyStrip_sublist _))
      have hL : eraseSep line = eraseSep (line.take (findCutPos line maxLen)) ++
          eraseSep (line.drop (findCutPos line maxLen)) := by
        rw [← eraseSep_append, List.take_append_drop]
      have hrem : (eraseSep (pyStrip (line.drop (findCutPos line maxLen)))).Sublist
          (eraseSep (line.drop (findCutPos line maxLen))) :=
        eraseSep_sublist_mono (pyStrip_sublist _)
      by_cases hre : (pyStrip (line.drop (findCutPos line maxLen))).isEmpty
      · rw [if_pos hre]
        refine (ih _ _ _).trans ?_
        simp only [List.flatten_cons, eraseSep_append, List.flatten_nil]
        rw [hL]
        simp only [List.append_assoc, List.nil_append,
          show eraseSep ([] : List Char) = [] from rfl]
        refine (hpre.append_right _).trans ?_
        simp only [List.append_assoc]
        exact (((sublist_drop_left _ (List.Sublist.refl _)).append_left
          _).append_left _).append_left _
      · rw [if_neg hre]
        by_cases hrl : (pyStrip (line.drop (findCutPos line maxLen))).length > maxLen
        · rw [if_pos hrl]
          refine (ih _ _ _).trans ?_
          simp only [List.flatten_cons, List.flatten_append, List.flatten_nil,
            eraseSep_append, List.append_nil, List.nil_append,
            show eraseSep ([] : List Char) = [] from rfl]
          rw [hL]
          have hr2 : (eraseSep (recur (pyStrip
              (line.drop (findCutPos line maxLen)))).flatten).Sublist
              (eraseSep (line.drop (findCutPos line maxLen))) :=
            (hrec _).trans hrem
          have := hpre.append (hr2.append
            (List.Sublist.refl (eraseSep rest.flatten)))
          simpa [List.append_assoc] using this
        · rw [if_neg hrl]
          refine (ih _ _ _).trans ?_
          simp only [List.flatten_cons, List.flatten_append, List.flatten_nil,
            eraseSep_append, List.append_nil, List.nil_append]
          rw [hL]
          have := hpre.append (hrem.append
            (List.Sublist.refl (eraseSep rest.flatten)))
          simpa [List.append_assoc] using this
    · rw [if_neg hlong]
      by_cases hmid : curLen + line.length ≥ maxLen ∧ current.isEmpty = false
      · rw [if_pos hmid]
        simp only []
        by_cases hfit : (joinLines current).length ≤ maxLen ∧
            (joinLines current).length + line.length + 1 ≤ maxLen
        · rw [if_pos hfit]
          refine (ih _ _ _).trans ?_
          simp only [List.flatten_cons, List.flatten_append, List.flatten_nil,
            eraseSep_append, List.append_nil, List.append_assoc]
          exact List.Sublist.refl _
        · rw [if_neg hfit]
          by_cases hsegle : (joinLines current).length ≤ maxLen
          · rw [if_pos hsegle]
            refine (ih _ _ _).trans ?_
            simp only [List.flatten_cons, List.flatten_append, List.flatten_nil,
              eraseSep_append, List.append_nil, List.append_assoc, eraseSep_joinLines]
            exact List.Sublist.refl _
          · rw [if_neg hsegle]
            refine (ih _ _ _).trans ?_
            simp only [List.flatten_cons, List.flatten_append, List.flatten_nil,
              eraseSep_append, List.append_nil, List.append_assoc]
            have hr : (eraseSep (recur (joinLines current)).flatten).Sublist
                (eraseSep current.flatten) := by
              have := hrec (joinLines current)
              rwa [eraseSep_joinLines] at this
            exact (hr.append (List.Sublist.refl _)).append_left _
      · rw [if_neg hmid]
        refine (ih _ _ _).trans ?_
        simp only [List.flatten_cons, List.flatten_append, List.flatten_nil,
          eraseSep_append, List.append_nil, List.append_assoc]
        exact List.Sublist.refl _

theorem splitLongText_content : ∀ (fuel : Nat) (text : List Char) (maxLen : Nat),
    (eraseSep (splitLongText fuel text maxLen).flatten).Sublist (eraseSep text) := by
  intro fuel
  induction fuel with
  | zero =>
    intro text maxLen
    rw [splitLongText]
    by_cases h : text.length > maxLen
    · rw [if_pos h]
      simp only [List.flatten_cons, List.flatten_nil, List.append_nil]
      exact eraseSep_sublist_mono (List.take_sublist _ _)
    · rw [if_neg h]
      simp only [List.flatten_cons, List.flatten_nil, List.append_nil]
      exact List.Sublist.refl _
  | succ fuel ih =>
    intro text maxLen
    rw [splitLongText]
    by_cases h : text.length ≤ maxLen
    · rw [if_pos h]
      simp only [List.flatten_cons, List.flatten_nil, List.append_nil]
      exact List.Sublist.refl _
    · rw [if_neg h]
      simp only []
      by_cases hnl : text.contains '\n'
      · rw [if_pos hnl]
        refine (splitLoop_content maxLen _ (fun t => ih t maxLen) _ _ _ _).trans ?_
        simp only [List.flatten_nil, show eraseSep ([] : List Char) = [] from rfl,
          List.nil_append]
        exact eraseSep_pyLines_sublist text
      · rw [if_neg hnl]
        refine (splitLoop_content maxLen _ (fun t => ih t maxLen) _ _ _ _).trans ?_
        simp only [List.flatten_nil, show eraseSep ([] : List Char) = [] from rfl,
          List.nil_append]
        exact eraseSep_sentenceLines_sublist text

theorem split_long_text_content (text : List Char) (maxLen : Nat) :
    (eraseSep (split_long_text text maxLen).flatten).Sublist (eraseSep text) :=
  splitLongText_content 11 text maxLen

theorem mergeLoop_content (maxChars : Nat) :
    ∀ (paras merged curSeg : List (List Char)) (curLen : Nat),
      (eraseSep (mergeLoop maxChars paras merged curSeg curLen).1.flatten ++
        eraseSep (mergeLoop maxChars paras merged curSeg curLen).2.1.flatten).Sublist
        (eraseSep merged.flatten ++
          (eraseSep curSeg.flatten ++ eraseSep paras.flatten)) := by
  intro paras
  induction paras with
  | nil =>
    intro merged curSeg curLen
    rw [mergeLoop]
    simp only [List.flatten_nil, show eraseSep ([] : List Char) = [] from rfl,
      List.append_nil]
    exact List.Sublist.refl _
  | cons para rest ih =>
    intro merged curSeg curLen
    rw [mergeLoop]
    have hflush : (eraseSep (if (joinParas curSeg).length > maxChars
          then merged ++ split_long_text (joinParas curSeg) maxChars
          else merged ++ [joinParas curSeg]).flatten).Sublist
        (eraseSep merged.flatten ++ eraseSep curSeg.flatten) := by
      by_cases hl : (joinParas curSeg).length > maxChars
      · rw [if_pos hl]
        simp only [List.flatten_append, eraseSep_append]
        refine List.Sublist.append_left ?_ _
        exact (split_long_text_content _ _).trans
          (by rw [eraseSep_joinParas])
      · rw [if_neg hl]
        simp only [List.flatten_append, List.flatten_cons, List.flatten_nil,
          eraseSep_append, List.append_nil, eraseSep_joinParas]
        exact List.Sublist.refl _
    by_cases hpl : para.length > maxChars
    · rw [if_pos hpl]
      simp only []
      refine (ih _ _ _).trans ?_
      simp only [List.flatten_cons, List.flatten_append, List.flatten_nil,
        eraseSep_append, show eraseSep ([] : List Char) = [] from rfl,
        List.append_nil, List.nil_append]
      have hm1 : (eraseSep (if curSeg.isEmpty then merged
            else if (joinParas curSeg).length > maxChars
              then merged ++ split_long_text (joinParas curSeg) maxChars
              else merged ++ [joinParas curSeg]).flatten).Sublist
          (eraseSep merged.flatten ++ eraseSep curSeg.flatten) := by
        by_cases hce : curSeg.isEmpty
        · rw [if_pos hce]
          exact List.sublist_append_left _ _
        · rw [if_neg hce]
          exact hflush
      have := hm1.append ((split_long_text_content para maxChars).append
        (List.Sublist.refl (eraseSep rest.flatten)))
      simpa [List.append_assoc] using this
    · rw [if_neg hpl]
      by_cases hmid : curLen + para.length > maxChars ∧ curSeg.isEmpty = false
      · rw [if_pos hmid]
        simp only []
        refine (ih _ _ _).trans ?_
        simp only [List.flatten_cons, List.flatten_append, List.flatten_nil,
          eraseSep_append, List.append_nil, List.nil_append]
        have := hflush.append (List.Sublist.refl
          (eraseSep para ++ eraseSep rest.flatten))
        simpa [List.append_assoc] using this
      · rw [if_neg hmid]
        simp only []
        by_cases htar : 4 * (curLen + para.length) ≥ 3 * maxChars ∨
            10 * (curLen + para.length) ≥ 9 * maxChars
        · rw [if_pos htar]
          have hseg : (eraseSep (joinParas (curSeg ++ [para]))).Sublist
              (eraseSep curSeg.flatten ++ eraseSep para) := by
            rw [eraseSep_joinParas]
            simp only [List.flatten_append, List.flatten_cons, List.flatten_nil,
              eraseSep_append, List.append_nil]
            exact List.Sublist.refl _
          by_cases hsl : (joinParas (curSeg ++ [para])).length > maxChars
          · rw [if_pos hsl]
            refine (ih _ _ _).trans ?_
            simp only [List.flatten_cons, List.flatten_append, List.flatten_nil,
              eraseSep_append, show eraseSep ([] : List Char) = [] from rfl,
              List.append_nil, List.nil_append]
            have h2 := (split_long_text_content (joinParas (curSeg ++ [para]))
              maxChars).trans hseg
            have := (List.Sublist.refl (eraseSep merged.flatten)).append
              (h2.append (List.Sublist.refl (eraseSep rest.flatten)))
            simpa [List.append_assoc] using this
          · rw [if_neg hsl]
            refine (ih _ _ _).trans ?_
            simp only [List.flatten_cons, List.flatten_append, List.flatten_nil,
              eraseSep_append, show eraseSep ([] : List Char) = [] from rfl,
              List.append_nil, List.nil_append]
            have := (List.Sublist.refl (eraseSep merged.flatten)).append
              (hseg.append (List.Sublist.refl (eraseSep rest.flatten)))
            simpa [List.append_assoc] using this
        · rw [if_neg htar]
          refine (ih _ _ _).trans ?_
          simp only [List.flatten_cons, List.flatten_append, List.flatten_nil,
            eraseSep_append, List.append_nil, List.append_assoc]
          exact List.Sublist.refl _

theorem dropLast_getLastD {α : Type} :
    ∀ (l : List α), l.isEmpty = false → ∀ d, l.dropLast ++ [l.getLastD d] = l := by
  intro l
  induction l with
  | nil => intro h; simp at h
  | cons x t ih =>
    intro _ d
    cases t with
    | nil => simp
    | cons y t' =>
      simp only [List.dropLast_cons₂, List.getLastD_cons, List.cons_append]
      have h := ih (by simp) x
      simp only [List.getLastD_cons] at h
      rw [h]

theorem mergeFinishTail_content (minChars maxChars : Nat)
    (merged curSeg : List (List Char)) :
    (eraseSep (mergeFinishTail minChars maxChars merged curSeg).flatten).Sublist
      (eraseSep merged.flatten ++ eraseSep curSeg.flatten) := by
  rw [mergeFinishTail]
  by_cases hce : curSeg.isEmpty
  · rw [if_pos hce]
    exact List.sublist_append_left _ _
  · rw [if_neg hce]
    simp only []
    by_cases hsl : (joinParas curSeg).length > maxChars
    · rw [if_pos hsl]
      simp only [List.flatten_append, eraseSep_append]
      exact List.Sublist.append_left
        ((split_long_text_content _ _).trans (by rw [eraseSep_joinParas])) _
    · rw [if_neg hsl]
      by_cases hmin : (joinParas curSeg).length < minChars ∧ merged.isEmpty = false
      · rw [if_pos hmin]
        by_cases hfit : (merged.getLastD []).length + (joinParas curSeg).length ≤ maxChars
        · rw [if_pos hfit]
          simp only [List.flatten_append, List.flatten_cons, List.flatten_nil,
            eraseSep_append, List.append_nil]
          have hm : eraseSep merged.flatten =
              eraseSep merged.dropLast.flatten ++ eraseSep (merged.getLastD []) := by
            conv_lhs => rw [← dropLast_getLastD merged hmin.2 []]
            simp [List.flatten_append, eraseSep_append]
          rw [hm]
          simp only [show ∀ l : List Char, eraseSep ('\n' :: l) = eraseSep l
            from fun _ => rfl, eraseSep_joinParas, List.append_assoc]
          exact List.Sublist.refl _
        · rw [if_neg hfit]
          simp only [List.flatten_append, List.flatten_cons, List.flatten_nil,
            eraseSep_append, List.append_nil, eraseSep_joinParas]
          exact List.Sublist.refl _
      · rw [if_neg hmin]
        simp only [List.flatten_append, List.flatten_cons, List.flatten_nil,
          eraseSep_append, List.append_nil, eraseSep_joinParas]
        exact List.Sublist.refl _

theorem finalCheck_content (maxChars : Nat) :
    ∀ merged : List (List Char),
      (eraseSep (finalCheck maxChars merged).flatten).Sublist
        (eraseSep merged.flatten) := by
  intro merged
  induction merged with
  | nil => exact List.Sublist.refl _
  | cons x t ih =>
    rw [finalCheck] at ih ⊢
    rw [List.flatMap_cons]
    simp only [List.flatten_cons, List.flatten_append, eraseSep_append]
    refine List.Sublist.append ?_ ih
    by_cases hl : x.length > maxChars
    · rw [if_pos hl]
      exact split_long_text_content x maxChars
    · rw [if_neg hl]
      simp only [List.flatten_cons, List.flatten_nil, List.append_nil]
      exact List.Sublist.refl _

/-- The packed units, concatenated, contain exactly input characters in
input order apart from inserted `'。'` and `'\n'` separators (characters can
be dropped — whitespace stripping and the depth-cap truncation — but never
reordered or invented).  Helper shared by several claims. -/
theorem merge_paragraphs_content_sublist (ps : List (List Char))
    (minChars maxChars : Nat) :
    (eraseSep (merge_paragraphs ps minChars maxChars).flatten).Sublist
      (eraseSep ps.flatten) := by
  rw [merge_paragraphs]
  by_cases hpe : ps.isEmpty
  · rw [if_pos hpe]
    exact List.nil_sublist _
  · rw [if_neg hpe]
    simp only []
    refine (finalCheck_content maxChars _).trans
      ((mergeFinishTail_content minChars maxChars _ _).trans ?_)
    refine (mergeLoop_content maxChars ps [] [] 0).trans ?_
    simp only [List.flatten_nil, show eraseSep ([] : List Char) = [] from rfl,
      List.nil_append]
    exact List.Sublist.refl _

/-- C2 (counterexample): the claimed lower bound fails off the final unit.
With `min_chars = 3 ≤ max_chars = 5` and paragraphs
`["aaaaaa", "bbbbbb"]`, the packer returns
`["aaaaa", "a。", "bbbbb", "b。"]`: the second of four units has length
2 < 3 although it is not the final one (the short tail of a long-paragraph
split is emitted in place, and the backward-merge step only ever considers
the very last leftover). -/
theorem merge_paragraphs_min_bound_cx :
    merge_paragraphs ["aaaaaa".toList, "bbbbbb".toList] 3 5 =
      ["aaaaa".toList, "a。".toList, "bbbbb".toList, "b。".toList] ∧
    (merge_paragraphs ["aaaaaa".toList, "bbbbbb".toList] 3 5).length = 4 ∧
    (merge_paragraphs ["aaaaaa".toList, "bbbbbb".toList] 3 5).get? 1 =
      some "a。".toList ∧
    ("a。".toList).length < 3 :=
  ⟨by decide, by decide, by decide, by decide⟩

/-- C2 (amended): packer size invariant.  For `min_chars ≤ max_chars`,
every unit emitted by `merge_paragraphs` has length `≤ max_chars`, and the
concatenated units preserve the original order of the input characters:
after erasing the separators the packer itself inserts (`'。'` and
`'\n'`), the concatenated output is a sublist — same characters, same
order, possibly with drops from whitespace stripping and the depth-cap
truncation — of the concatenated input.  Units shorter than `min_chars`
may however appear at non-final positions. -/
theorem merge_paragraphs_size_invariant (ps : List (List Char))
    (minChars maxChars : Nat) (h : minChars ≤ maxChars) :
    (∀ u ∈ merge_paragraphs ps minChars maxChars, u.length ≤ maxChars) ∧
    (eraseSep (merge_paragraphs ps minChars maxChars).flatten).Sublist
      (eraseSep ps.flatten) :=
  ⟨merge_paragraphs_bounded ps minChars maxChars,
   merge_paragraphs_content_sublist ps minChars maxChars⟩

/-- C2 witness: the size invariant evaluated on a concrete packing. -/
theorem merge_paragraphs_size_invariant_witness :
    (1 : Nat) ≤ 5 ∧
    ((∀ u ∈ merge_paragraphs ["ab".toList, "cd".toList] 1 5, u.length ≤ 5) ∧
      (eraseSep (merge_paragraphs ["ab".toList, "cd".toList] 1 5).flatten).Sublist
        (eraseSep (["ab".toList, "cd".toList] : List (List Char)).flatten)) :=
  ⟨by decide, merge_paragraphs_size_invariant ["ab".toList, "cd".toList] 1 5 (by decide)⟩

/-- C8 (counterexample): a configuration with `min_chars > max_chars` is
not rejected.  `merge_paragraphs(["ab"], 5, 3)` raises nothing and returns
the perfectly normal unit list `["ab"]`; neither `merge_paragraphs`
(`text_processor.py` lines 129-139) nor `build_podcast` (`cli.py` lines
196-207) contains any validation of the bounds. -/
theorem merge_paragraphs_no_validation_cx :
    merge_paragraphs ["ab".toList] 5 3 = ["ab".toList] := by decide

/-- C8 (amended): `min_chars > max_chars` is not treated as a configuration
error: merge_paragraphs proceeds normally, and its units still respect the
`max_chars` upper bound (the lower bound is simply unsatisfiable and
ignored). -/
theorem merge_paragraphs_min_gt_max (ps : List (List Char))
    (minChars maxChars : Nat) (h : maxChars < minChars) :
    ∀ u ∈ merge_paragraphs ps minChars maxChars, u.length ≤ maxChars :=
  merge_paragraphs_bounded ps minChars maxChars

/-- C8 witness: the inverted bounds evaluated concretely. -/
theorem merge_paragraphs_min_gt_max_witness :
    (3 : Nat) < 5 ∧
    ∀ u ∈ merge_paragraphs ["ab".toList] 5 3, u.length ≤ 3 :=
  ⟨by decide, merge_paragraphs_min_gt_max ["ab".toList] 5 3 (by decide)⟩

/-! ### TextCleaner idempotence -/

theorem chineseDigit_safe : ∀ d : Nat, cleanSafeChar (chineseDigit d) = true := by
  intro d
  unfold chineseDigit
  split <;> decide

theorem digitByDigit_safe (n : Nat) : ∀ c ∈ digitByDigit n, cleanSafeChar c = true := by
  intro c hc
  obtain ⟨d, _, rfl⟩ := List.mem_map.1 hc
  exact chineseDigit_safe d

theorem convertNumberAux_safe : ∀ (fuel n : Nat), ∀ c ∈ convertNumberAux fuel n,
    cleanSafeChar c = true := by
  intro fuel
  induction fuel with
  | zero => intro n c hc; simp [convertNumberAux] at hc
  | succ fuel ih =>
    intro n c hc
    rw [convertNumberAux] at hc
    by_cases h1 : 1000 ≤ n ∧ n < 10000 ∧ (natDigits n).length = 4
    · rw [if_pos h1] at hc
      exact digitByDigit_safe n c hc
    · rw [if_neg h1] at hc
      by_cases h2 : n < 10000
      · rw [if_pos h2] at hc
        by_cases h3 : n = 0
        · rw [if_pos h3] at hc
          have : c = '零' := by simpa using hc
          subst this; decide
        · rw [if_neg h3] at hc
          by_cases h4 : n < 10
          · rw [if_pos h4] at hc
            have : c = chineseDigit n := by simpa using hc
            subst this; exact chineseDigit_safe n
          · rw [if_neg h4] at hc
            by_cases h5 : n < 20
            · rw [if_pos h5] at hc
              by_cases h6 : n = 10
              · rw [if_pos h6] at hc
                have : c = '十' := by simpa using hc
                subst this; decide
              · rw [if_neg h6] at hc
                simp only [List.mem_cons, List.not_mem_nil, or_false] at hc
                rcases hc with rfl | rfl
                · decide
                · exact chineseDigit_safe _
            · rw [if_neg h5] at hc
              by_cases h7 : n < 100
              · rw [if_pos h7] at hc
                rcases List.mem_append.1 hc with hc | hc
                · simp only [List.mem_cons, List.not_mem_nil, or_false] at hc
                  rcases hc with rfl | rfl
                  · exact chineseDigit_safe _
                  · decide
                · by_cases h8 : n % 10 > 0
                  · rw [if_pos h8] at hc
                    have : c = chineseDigit (n % 10) := by simpa using hc
                    subst this; exact chineseDigit_safe _
                  · rw [if_neg h8] at hc; simp at hc
              · rw [if_neg h7] at hc
                by_cases h9 : n < 1000
                · rw [if_pos h9] at hc
                  rcases List.mem_append.1 hc with hc | hc
                  · simp only [List.mem_cons, List.not_mem_nil, or_false] at hc
                    rcases hc with rfl | rfl
                    · exact chineseDigit_safe _
                    · decide
                  · by_cases ha : n % 100 > 0
                    · rw [if_pos ha] at hc
                      by_cases hb : n % 100 < 10
                      · rw [if_pos hb] at hc
                        simp only [List.mem_cons, List.not_mem_nil, or_false] at hc
                        rcases hc with rfl | rfl
                        · decide
                        · exact chineseDigit_safe _
                      · rw [if_neg hb] at hc
                        exact ih _ c hc
                    · rw [if_neg ha] at hc; simp at hc
                · rw [if_neg h9] at hc
                  rcases List.mem_append.1 hc with hc | hc
                  · simp only [List.mem_cons, List.not_mem_nil, or_false] at hc
                    rcases hc with rfl | rfl
                    · exact chineseDigit_safe _
                    · decide
                  · by_cases ha : n % 1000 > 0
                    · rw [if_pos ha] at hc
                      by_cases hb : n % 1000 < 100
                      · rw [if_pos hb] at hc
                        rcases List.mem_cons.1 hc with rfl | hc
                        · decide
                        · exact ih _ c hc
                      · rw [if_neg hb] at hc
                        exact ih _ c hc
                    · rw [if_neg ha] at hc; simp at hc
      · rw [if_neg h2] at hc
        exact digitByDigit_safe n c hc

theorem convert_number_safe (n : Nat) : ∀ c ∈ convert_number n, cleanSafeChar c = true :=
  convertNumberAux_safe 3 n

theorem numMapGet_safe {c : Char} (h : isAsciiDigit c = true) :
    cleanSafeChar (numMapGet c) = true := by
  have hd : 48 ≤ c.toNat ∧ c.toNat ≤ 57 := of_decide_eq_true h
  rw [numMapGet, if_pos hd]
  exact chineseDigit_safe _

theorem replaceNumber_safe {intPart : List Char} {frac : Option (List Char)}
    (hfrac : ∀ fp, frac = some fp → ∀ c ∈ fp, isAsciiDigit c = true) :
    ∀ c ∈ replaceNumber intPart frac, cleanSafeChar c = true := by
  intro c hc
  cases frac with
  | none => exact convert_number_safe _ c hc
  | some fp =>
    rw [replaceNumber] at hc
    rcases List.mem_append.1 hc with hc | hc
    · exact convert_number_safe _ c hc
    · rcases List.mem_cons.1 hc with rfl | hc
      · decide
      · obtain ⟨d, hd, rfl⟩ := List.mem_map.1 hc
        exact numMapGet_safe (hfrac fp rfl d hd)

theorem subUnitNumbers_id : ∀ (fuel : Nat) (l : List Char),
    (∀ c ∈ l, isPyDigit c = false) → subUnitNumbers fuel l = l := by
  intro fuel
  induction fuel with
  | zero => intro l _; rfl
  | succ fuel ih =>
    intro l h
    cases l with
    | nil => rfl
    | cons c rest =>
      have hc : isPyDigit c = false := h c (by simp)
      rw [subUnitNumbers]
      simp only [hc, Bool.false_eq_true, if_false]
      rw [ih rest (fun d hd => h d (List.mem_cons_of_mem c hd))]

theorem subNumbers_id : ∀ (fuel : Nat) (l : List Char),
    (∀ c ∈ l, isPyDigit c = false) → subNumbers fuel l = l := by
  intro fuel
  induction fuel with
  | zero => intro l _; rfl
  | succ fuel ih =>
    intro l h
    cases l with
    | nil => rfl
    | cons c rest =>
      have hc : isPyDigit c = false := h c (by simp)
      rw [subNumbers]
      simp only [hc, Bool.false_eq_true, if_false]
      rw [ih rest (fun d hd => h d (List.mem_cons_of_mem c hd))]

theorem number_to_chinese_id {l : List Char}
    (h : ∀ c ∈ l, isPyDigit c = false) : number_to_chinese l = l := by
  rw [number_to_chinese, subUnitNumbers_id l.length l h, subNumbers_id _ l h]

theorem matchNumber_cases (c : Char) (rest : List Char) (hc : isPyDigit c = true) :
    ((matchNumber (c :: rest)).2.2.Sublist rest) ∧
    (∀ fp, (matchNumber (c :: rest)).2.1 = some fp →
      ∀ x ∈ fp, isPyDigit x = true ∧ x ∈ rest) := by
  rw [matchNumber]
  simp only [List.span_eq_take_drop]
  rw [List.dropWhile_cons, if_pos hc]
  cases hdw : rest.dropWhile isPyDigit with
  | nil => exact ⟨List.nil_sublist rest, by intro fp hfp; cases hfp⟩
  | cons c2 r2 =>
    have hr2 : (c2 :: r2).Sublist rest := hdw ▸ List.dropWhile_sublist _
    dsimp only
    by_cases hdot : c2 = '.'
    · rw [if_pos hdot]
      constructor
      · exact (List.dropWhile_sublist isPyDigit).trans
          ((List.sublist_cons_self c2 r2).trans hr2)
      · intro fp hfp x hx
        have hfp' : fp = r2.takeWhile isPyDigit := by
          simpa using hfp.symm
        subst hfp'
        refine ⟨List.mem_takeWhile_imp hx, ?_⟩
        exact hr2.subset (List.mem_cons_of_mem c2
          ((List.takeWhile_sublist isPyDigit).subset hx))
    · rw [if_neg hdot]
      exact ⟨hr2, by intro fp hfp; cases hfp⟩

theorem subUnitNumbers_safe : ∀ (fuel : Nat) (l : List Char),
    asciiDigitsOnly l = true →
    ∀ c ∈ subUnitNumbers fuel l, c ∈ l ∨ cleanSafeChar c = true := by
  intro fuel
  induction fuel with
  | zero => intro l _ c hc; exact Or.inl hc
  | succ fuel ih =>
    intro l hl c hc
    cases l with
    | nil => cases hc
    | cons x rest =>
      have hrest : asciiDigitsOnly rest = true := by
        rw [asciiDigitsOnly, List.all_eq_true] at hl ⊢
        exact fun a ha => hl a (List.mem_cons_of_mem x ha)
      rw [subUnitNumbers] at hc
      by_cases hx : isPyDigit x
      · rw [if_pos hx] at hc
        obtain ⟨htail, _⟩ := matchNumber_cases x rest hx
        cases htl : (matchNumber (x :: rest)).2.2 with
        | nil =>
          rw [htl] at hc
          dsimp only at hc
          rcases List.mem_cons.1 hc with rfl | hc
          · exact Or.inl (by simp)
          · rcases ih rest hrest c hc with h | h
            · exact Or.inl (List.mem_cons_of_mem x h)
            · exact Or.inr h
        | cons u tail2 =>
          rw [htl] at hc
          rw [htl] at htail
          dsimp only at hc
          by_cases hu : isUnitChar u
          · rw [if_pos hu] at hc
            rcases List.mem_append.1 hc with hc | hc
            · exact Or.inr (convert_number_safe _ c hc)
            · rcases List.mem_cons.1 hc with rfl | hc
              · exact Or.inl (List.mem_cons_of_mem x
                  (htail.subset (List.mem_cons_self _ _)))
              · have htail2 : asciiDigitsOnly tail2 = true := by
                  rw [asciiDigitsOnly, List.all_eq_true] at hrest ⊢
                  intro a ha
                  exact hrest a (htail.subset (List.mem_cons_of_mem u ha))
                rcases ih tail2 htail2 c hc with h | h
                · exact Or.inl (List.mem_cons_of_mem x
                    (htail.subset (List.mem_cons_of_mem u h)))
                · exact Or.inr h
          · rw [if_neg hu] at hc
            rcases List.mem_cons.1 hc with rfl | hc
            · exact Or.inl (by simp)
            · rcases ih rest hrest c hc with h | h
              · exact Or.inl (List.mem_cons_of_mem x h)
              · exact Or.inr h
      · rw [if_neg hx] at hc
        rcases List.mem_cons.1 hc with rfl | hc
        · exact Or.inl (by simp)
        · rcases ih rest hrest c hc with h | h
          · exact Or.inl (List.mem_cons_of_mem x h)
          · exact Or.inr h

theorem subNumbers_nodigit : ∀ (fuel : Nat) (l : List Char), l.length ≤ fuel →
    asciiDigitsOnly l = true →
    ∀ c ∈ subNumbers fuel l, isPyDigit c = false := by
  intro fuel
  induction fuel with
  | zero =>
    intro l hlen _ c hc
    have : l = [] := by cases l <;> simp_all
    subst this
    cases hc
  | succ fuel ih =>
    intro l hlen hl c hc
    cases l with
    | nil => cases hc
    | cons x rest =>
      have hrest : asciiDigitsOnly rest = true := by
        rw [asciiDigitsOnly, List.all_eq_true] at hl ⊢
        exact fun a ha => hl a (List.mem_cons_of_mem x ha)
      rw [subNumbers] at hc
      by_cases hx : isPyDigit x
      · rw [if_pos hx] at hc
        obtain ⟨htail, hfrac⟩ := matchNumber_cases x rest hx
        rcases List.mem_append.1 hc with hc | hc
        · have hsafe : cleanSafeChar c = true := by
            refine replaceNumber_safe ?_ c hc
            intro fp hfp d hd
            obtain ⟨hdig, hmem⟩ := hfrac fp hfp d hd
            rw [asciiDigitsOnly, List.all_eq_true] at hrest
            have := hrest d hmem
            simpa [hdig] using this
          rw [cleanSafeChar, Bool.and_eq_true, Bool.and_eq_true, Bool.and_eq_true,
            Bool.and_eq_true, Bool.and_eq_true] at hsafe
          simpa using hsafe.1.1.1.1.1
        · have htlen : (matchNumber (x :: rest)).2.2.length ≤ fuel := by
            have := htail.length_le
            simp only [List.length_cons] at hlen
            omega
          have htascii : asciiDigitsOnly (matchNumber (x :: rest)).2.2 = true := by
            rw [asciiDigitsOnly, List.all_eq_true] at hrest ⊢
            exact fun a ha => hrest a (htail.subset ha)
          exact ih _ htlen htascii c hc
      · rw [if_neg hx] at hc
        rcases List.mem_cons.1 hc with rfl | hc
        · simpa using hx
        · exact ih rest (by simp at hlen; omega) hrest c hc

theorem number_to_chinese_nodigit {x : List Char}
    (hx : asciiDigitsOnly x = true) :
    ∀ c ∈ number_to_chinese x, isPyDigit c = false := by
  intro c hc
  rw [number_to_chinese] at hc
  have hy : asciiDigitsOnly (subUnitNumbers x.length x) = true := by
    rw [asciiDigitsOnly, List.all_eq_true]
    intro a ha
    rcases subUnitNumbers_safe x.length x hx a ha with h | h
    · rw [asciiDigitsOnly, List.all_eq_true] at hx
      exact hx a h
    · rw [cleanSafeChar, Bool.and_eq_true, Bool.and_eq_true, Bool.and_eq_true,
        Bool.and_eq_true, Bool.and_eq_true] at h
      simp [h.1.1.1.1.1]
  exact subNumbers_nodigit _ _ (le_refl _) hy c hc

theorem pyStrip_cons_ws (a : Char) (l : List Char) (ha : a.isWhitespace = true) :
    pyStrip (a :: l) = pyStrip l := by
  rw [pyStrip, pyStrip, List.dropWhile_cons, if_pos ha]

theorem filter_head_nws (l : List Char)
    (h : ∀ c, l.head? = some c → c.isWhitespace = false) :
    ∀ c, (l.filter (fun c => !(c == ' '))).head? = some c → c.isWhitespace = false := by
  intro c hc
  cases l with
  | nil => simp [List.filter_nil] at hc
  | cons a r =>
    have ha := h a rfl
    have hpa : (!(a == ' ')) = true := by
      have hne : ¬ a = ' ' := by
        intro he
        subst he
        simp at ha
      simp [hne]
    rw [List.filter_cons, if_pos hpa] at hc
    have hca : c = a := by simpa using hc.symm
    subst hca
    exact ha

theorem filter_getLast_nws {l : List Char}
    (h : ∀ c, l.getLast? = some c → c.isWhitespace = false) :
    ∀ c, (l.filter (fun c => !(c == ' '))).getLast? = some c → c.isWhitespace = false := by
  intro c hc
  rw [List.getLast?_eq_head?_reverse, ← List.filter_reverse] at hc
  refine filter_head_nws l.reverse ?_ c hc
  intro d hd
  apply h
  rw [List.getLast?_eq_head?_reverse]
  exact hd

theorem mem_joinWith : ∀ (sep : List Char) (xs : List (List Char)) (c : Char),
    c ∈ joinWith sep xs → c ∈ sep ∨ ∃ x ∈ xs, c ∈ x := by
  intro sep xs
  induction xs with
  | nil => intro c hc; simp [joinWith] at hc
  | cons x t ih =>
    intro c hc
    cases t with
    | nil =>
      rw [joinWith] at hc
      exact Or.inr ⟨x, by simp, hc⟩
    | cons y t2 =>
      rw [joinWith] at hc
      rcases List.mem_append.1 hc with hc | hc
      · rcases List.mem_append.1 hc with hc | hc
        · exact Or.inr ⟨x, by simp, hc⟩
        · exact Or.inl hc
      · rcases ih c hc with h | ⟨z, hz, hcz⟩
        · exact Or.inl h
        · exact Or.inr ⟨z, List.mem_cons_of_mem x hz, hcz⟩

theorem clean_text_eq_joinWith (text : List Char) :
    clean_text text = joinWith ['\n'] ((cleanUnits text).map (fun s => s ++ ['。'])) :=
  rfl

theorem splitOnChar_joinSentences : ∀ (us : List (List Char)) (u : List Char),
    (∀ s ∈ u :: us, '。' ∉ s) →
    splitOnChar '。' (joinWith ['\n'] ((u :: us).map (fun s => s ++ ['。']))) =
      u :: (us.map (fun s => '\n' :: s) ++ [[]]) := by
  intro us
  induction us with
  | nil =>
    intro u h
    rw [List.map_cons, List.map_nil, joinWith]
    rw [show u ++ ['。'] = u ++ '。' :: [] from rfl,
      splitOnChar_append, splitOnChar_of_not_mem (h u (by simp))]
    rfl
  | cons v us ih =>
    intro u h
    have hjoin : joinWith ['\n'] ((u :: v :: us).map (fun s => s ++ ['。'])) =
        u ++ '。' :: ('\n' :: joinWith ['\n'] ((v :: us).map (fun s => s ++ ['。']))) := by
      rw [List.map_cons, List.map_cons, joinWith, ← List.map_cons (fun s => s ++ ['。']) v us]
      simp
    rw [hjoin, splitOnChar_append, splitOnChar_of_not_mem (h u (by simp)), splitOnChar]
    rw [if_neg (by decide)]
    rw [ih v (fun s hs => h s (List.mem_cons_of_mem u hs))]
    simp

theorem cleanUnits_props (x : List Char) :
    ∀ u ∈ cleanUnits x,
      u ≠ [] ∧ '。' ∉ u ∧ (∀ c ∈ u, (c == ' ') = false) ∧
      (∀ c, u.head? = some c → c.isWhitespace = false) ∧
      (∀ c, u.getLast? = some c → c.isWhitespace = false) ∧
      (∀ c ∈ u, c ∈ (number_to_chinese x).map commaMap) := by
  intro u hu
  rw [cleanUnits] at hu
  obtain ⟨hu1, hu2⟩ := List.mem_filter.1 hu
  obtain ⟨s, hs, rfl⟩ := List.mem_map.1 hu1
  obtain ⟨hs1, _⟩ := List.mem_filter.1 hs
  obtain ⟨t, ht, rfl⟩ := List.mem_map.1 hs1
  have hsubt : ((pyStrip t).filter (fun c => !(c == ' '))).Sublist t :=
    ((List.filter_sublist _).trans (pyStrip_sublist t))
  refine ⟨?_, ?_, ?_, ?_, ?_, ?_⟩
  · intro he
    rw [he] at hu2
    simp at hu2
  · intro hmem
    exact splitOnChar_no_sep '。' _ t ht (hsubt.subset hmem)
  · intro c hc
    have := List.of_mem_filter hc
    simpa using this
  · exact fun c hc => filter_head_nws _ (fun a ha => pyStrip_head_ws ha) c hc
  · exact fun c hc => filter_getLast_nws (fun a ha => pyStrip_last_ws ha) c hc
  · intro c hc
    exact (splitOnChar_sublist '。' _ t ht).subset (hsubt.subset hc)

theorem clean_text_fixed (us : List (List Char))
    (hne : ∀ u ∈ us, u ≠ [])
    (hsep : ∀ u ∈ us, '。' ∉ u)
    (hsp : ∀ u ∈ us, ∀ c ∈ u, (c == ' ') = false)
    (hhd : ∀ u ∈ us, ∀ c, u.head? = some c → c.isWhitespace = false)
    (hlt : ∀ u ∈ us, ∀ c, u.getLast? = some c → c.isWhitespace = false)
    (hnd : ∀ u ∈ us, ∀ c ∈ u, isPyDigit c = false ∧ c ≠ '，' ∧ c ≠ ',') :
    clean_text (joinWith ['\n'] (us.map (fun s => s ++ ['。']))) =
      joinWith ['\n'] (us.map (fun s => s ++ ['。'])) := by
  cases us with
  | nil => rfl
  | cons u0 rest =>
    set y := joinWith ['\n'] ((u0 :: rest).map (fun s => s ++ ['。'])) with hy
    have hychar : ∀ c ∈ y, isPyDigit c = false ∧ commaMap c = c := by
      intro c hc
      rw [hy] at hc
      rcases mem_joinWith _ _ c hc with h | ⟨z, hz, hcz⟩
      · have hcn : c = '\n' := by simpa using h
        subst hcn
        exact ⟨by decide, by decide⟩
      · obtain ⟨u, hu, rfl⟩ := List.mem_map.1 hz
        rcases List.mem_append.1 hcz with hcu | hcs
        · obtain ⟨hd1, hd2, hd3⟩ := hnd u hu c hcu
          exact ⟨hd1, by rw [commaMap, if_neg hd2, if_neg hd3]⟩
        · have hcn : c = '。' := by simpa using hcs
          subst hcn
          exact ⟨by decide, by decide⟩
    have h1 : number_to_chinese y = y :=
      number_to_chinese_id (fun c hc => (hychar c hc).1)
    have h2 : y.map commaMap = y := by
      calc y.map commaMap = y.map id :=
            List.map_congr_left (fun c hc => (hychar c hc).2)
        _ = y := List.map_id y
    have e1 : splitOnChar '。' y = u0 :: (rest.map (fun s => '\n' :: s) ++ [[]]) := by
      rw [hy]
      exact splitOnChar_joinSentences rest u0 hsep
    have e2 : (u0 :: (rest.map (fun s => '\n' :: s) ++ [[]])).map pyStrip =
        u0 :: (rest ++ [[]]) := by
      rw [List.map_cons, List.map_append, List.map_map]
      have hu0 : pyStrip u0 = u0 :=
        pyStrip_eq_self (hhd u0 (by simp)) (hlt u0 (by simp))
      have hrest : rest.map (pyStrip ∘ fun s => '\n' :: s) = rest := by
        have hcong : ∀ s ∈ rest, (pyStrip ∘ fun s => '\n' :: s) s = id s := by
          intro s hs
          have hmem : s ∈ u0 :: rest := List.mem_cons_of_mem u0 hs
          show pyStrip ('\n' :: s) = s
          rw [pyStrip_cons_ws '\n' s (by decide)]
          exact pyStrip_eq_self (hhd s hmem) (hlt s hmem)
        rw [List.map_congr_left hcong, List.map_id]
      rw [hu0, hrest]
      rfl
    have e3 : (u0 :: (rest ++ [[]])).filter (fun s => !s.isEmpty) = u0 :: rest := by
      rw [List.filter_cons, List.filter_append]
      have h0 : (!u0.isEmpty) = true := by
        have := hne u0 (by simp)
        simpa [List.isEmpty_iff] using this
      rw [if_pos h0]
      have hr : rest.filter (fun s => !s.isEmpty) = rest := by
        rw [List.filter_eq_self]
        intro s hs
        have := hne s (List.mem_cons_of_mem u0 hs)
        simpa [List.isEmpty_iff] using this
      rw [hr, show ([[]] : List (List Char)).filter (fun s => !s.isEmpty) = [] from rfl,
        List.append_nil]
    have e4 : (u0 :: rest).map (fun s => s.filter (fun c => !(c == ' '))) =
        u0 :: rest := by
      have hcong : ∀ s ∈ u0 :: rest,
          s.filter (fun c => !(c == ' ')) = id s := by
        intro s hs
        show s.filter (fun c => !(c == ' ')) = s
        rw [List.filter_eq_self]
        intro c hc
        have := hsp s hs c hc
        simp [this]
      rw [List.map_congr_left hcong, List.map_id]
    have e5 : (u0 :: rest).filter (fun s => !s.isEmpty) = u0 :: rest := by
      rw [List.filter_eq_self]
      intro s hs
      have := hne s hs
      simpa [List.isEmpty_iff] using this
    rw [clean_text]
    rw [h1, h2, e1, e2, e3, e4, e5]

/-- C4, counterexample: `clean_text` is not idempotent on every input.
Python's `\d` matches all Unicode decimal digits but `num_map` only maps
the ASCII ones, so on `"1.٣"` (with the Arabic-Indic digit `'٣'`) the first
pass yields `"一点٣。"` — the fractional digit `'٣'` passes through `num_map`
unchanged — and the second pass then converts the now integer-positioned
`'٣'` through `convert_number`, yielding `"一点三。"`. -/
theorem clean_text_idempotent_cx :
    clean_text (clean_text ['1', '.', '٣']) ≠ clean_text ['1', '.', '٣'] := by
  decide

/-- C4: `clean_text` is idempotent on inputs whose `\d`-digits are all
ASCII (in particular on all ASCII and on digit-free text): the output is a
newline-joined list of nonempty sentence units, each ending in `'。'`,
containing no digit, `'。'`, comma or space, and not starting or ending in
whitespace, and a second run reproduces it verbatim.  Purity holds by
construction: the model is a function of the input string alone, as is the
source (no global state is read or written in `clean_text` or
`number_to_chinese`). -/
theorem clean_text_idempotent (x : List Char) (hx : asciiDigitsOnly x = true) :
    clean_text (clean_text x) = clean_text x := by
  have ht2 : ∀ c ∈ (number_to_chinese x).map commaMap,
      isPyDigit c = false ∧ c ≠ '，' ∧ c ≠ ',' := by
    intro c hc
    obtain ⟨d, hd, rfl⟩ := List.mem_map.1 hc
    have hdd : isPyDigit d = false := number_to_chinese_nodigit hx d hd
    by_cases h1 : d = '，'
    · rw [commaMap, if_pos h1]
      exact ⟨by decide, by decide, by decide⟩
    · by_cases h2 : d = ','
      · rw [commaMap, if_neg h1, if_pos h2]
        exact ⟨by decide, by decide, by decide⟩
      · rw [commaMap, if_neg h1, if_neg h2]
        exact ⟨hdd, h1, h2⟩
  rw [clean_text_eq_joinWith x]
  apply clean_text_fixed
  · exact fun u hu => (cleanUnits_props x u hu).1
  · exact fun u hu => (cleanUnits_props x u hu).2.1
  · exact fun u hu => (cleanUnits_props x u hu).2.2.1
  · exact fun u hu => (cleanUnits_props x u hu).2.2.2.1
  · exact fun u hu => (cleanUnits_props x u hu).2.2.2.2.1
  · intro u hu c hc
    exact ht2 c ((cleanUnits_props x u hu).2.2.2.2.2 c hc)

/-- Witness for C4 at the concrete input `"有3个。 5只"`. -/
theorem clean_text_idempotent_witness :
    asciiDigitsOnly "有3个。 5只".toList = true ∧
      clean_text (clean_text "有3个。 5只".toList) = clean_text "有3个。 5只".toList :=
  ⟨by decide, clean_text_idempotent _ (by decide)⟩

end GenPod
